import Mathlib

/-!
Verification of the connect-a-graph puzzle core (`connect_a_graph.py`).

The program represents an H×W board as an unbounded integer bitset, row-major:
bit `row * W + col` holds cell `(row, col)`.  A `Position` is a one-hot bitset.
We embed the integer-valued helpers as functions on `Nat`, keeping the source
structure (shift/mask arithmetic, scan order of loops, the Up/Down/Left/Right
tie-break of the solver).  Recursive procedures whose Python originals are a
`while` loop over a work queue (the connectivity BFS) or recursive descent
(`_Solve`) become well-founded recursive definitions; computable fueled
mirrors (`bfsI`, `SolveAuxI`, ...) are provided, with soundness bridges, to
evaluate concrete instances.
-/

namespace ConnectAGraph

/-- Python's `int.bit_length`, via a fuel-based structural recursion so that the
kernel can evaluate it (`bit_length n` halves `n` at most `n` times). -/
def bitLengthAux : Nat → Nat → Nat
  | 0, _ => 0
  | fuel + 1, n => if n = 0 then 0 else bitLengthAux fuel (n / 2) + 1

/-- Python's `int.bit_length`: number of bits needed to represent `n`; 0 for 0. -/
def bitLength (n : Nat) : Nat := bitLengthAux n n

theorem bitLengthAux_zero (fuel : Nat) : bitLengthAux fuel 0 = 0 := by
  cases fuel <;> simp [bitLengthAux]

theorem bitLengthAux_eq_of_le (n : Nat) : ∀ fuel fuel2 : Nat, n ≤ fuel → n ≤ fuel2 →
    bitLengthAux fuel n = bitLengthAux fuel2 n := by
  induction n using Nat.strong_induction_on with
  | _ n ih =>
    intro fuel fuel2 h1 h2
    rcases Nat.eq_zero_or_pos n with hn | hn
    · subst hn; rw [bitLengthAux_zero, bitLengthAux_zero]
    · have hf1 : fuel ≠ 0 := by omega
      have hf2 : fuel2 ≠ 0 := by omega
      obtain ⟨f1, rfl⟩ := Nat.exists_eq_succ_of_ne_zero hf1
      obtain ⟨f2, rfl⟩ := Nat.exists_eq_succ_of_ne_zero hf2
      have hn0 : n ≠ 0 := by omega
      simp only [bitLengthAux, hn0, if_false]
      have hdiv : n / 2 < n := Nat.div_lt_self hn (by omega)
      rw [ih (n / 2) hdiv f1 f2 (by omega) (by omega)]

/-- Unfolding equation for `bitLength`. -/
theorem bitLength_eq (n : Nat) :
    bitLength n = if n = 0 then 0 else bitLength (n / 2) + 1 := by
  rcases Nat.eq_zero_or_pos n with hn | hn
  · subst hn; simp [bitLength, bitLengthAux]
  · have hn0 : n ≠ 0 := by omega
    obtain ⟨m, rfl⟩ := Nat.exists_eq_succ_of_ne_zero hn0
    simp only [bitLength, bitLengthAux, hn0, if_false]
    have hdiv : (m + 1) / 2 < m + 1 := Nat.div_lt_self hn (by omega)
    rw [bitLengthAux_eq_of_le ((m + 1) / 2) m ((m + 1) / 2) (by omega) (le_refl _)]

theorem bitLength_two_pow (i : Nat) : bitLength (2 ^ i) = i + 1 := by
  induction i with
  | zero => simp [bitLength, bitLengthAux]
  | succ i ih =>
    rw [bitLength_eq]
    have h2 : 2 ^ (i + 1) / 2 = 2 ^ i := by
      rw [Nat.pow_succ, Nat.mul_div_cancel _ (by omega)]
    simp only [Nat.pow_eq_zero]
    rw [if_neg (by omega), h2, ih]

theorem lt_two_pow_bitLength (n : Nat) : n < 2 ^ bitLength n := by
  induction n using Nat.strong_induction_on with
  | _ n ih =>
    rcases Nat.eq_zero_or_pos n with hn | hn
    · subst hn; simp [bitLength, bitLengthAux]
    · rw [bitLength_eq, if_neg (by omega)]
      have hdiv : n / 2 < n := Nat.div_lt_self hn (by omega)
      have h := ih (n / 2) hdiv
      have hmod := Nat.div_add_mod n 2
      have hm : n % 2 < 2 := Nat.mod_lt _ (by omega)
      calc n < 2 * (n / 2) + 2 := by omega
        _ ≤ 2 * 2 ^ bitLength (n / 2) := by omega
        _ = 2 ^ (bitLength (n / 2) + 1) := by rw [Nat.pow_succ]; ring

theorem lt_bitLength_of_testBit {n i : Nat} (h : n.testBit i = true) : i < bitLength n := by
  by_contra hcon
  have hle : bitLength n ≤ i := by omega
  have : n < 2 ^ i := lt_of_lt_of_le (lt_two_pow_bitLength n) (Nat.pow_le_pow_right (by omega) hle)
  rw [Nat.testBit_lt_two_pow this] at h
  exact Bool.false_ne_true h

theorem bitLength_one_hot (i : Nat) : bitLength (2 ^ i) - 1 = i := by
  rw [bitLength_two_pow]; omega

/-- The four move directions (class `Direction` in the source). -/
inductive Direction where
  | UP
  | DOWN
  | LEFT
  | RIGHT
deriving DecidableEq

/-- `Helper.EncodePosition`: the one-hot bitset for cell `(row, col)`,
`1 << (width * row + col)`.  The source performs no range check. -/
def EncodePosition (W row col : Nat) : Nat := 1 <<< (W * row + col)

/-- `Helper.DecodePosition`: locate the single set bit and split the index by
`W` (the source divides with Python-2 integer division). -/
def DecodePosition (W position : Nat) : Nat × Nat :=
  let shift := bitLength position - 1
  (shift / W, shift % W)

/-- `Helper.GetPositionAfterMove`: geometric neighbor of a one-hot position,
or `none` at the grid boundary, implemented exactly as the source's shift and
offset tests (`offset = position.bit_length() - 1`). -/
def GetPositionAfterMove (H W position : Nat) (direction : Direction) : Option Nat :=
  let offset := bitLength position - 1
  match direction with
  | .UP => if W ≤ offset then some (position >>> W) else none
  | .DOWN => if offset < W * (H - 1) then some (position <<< W) else none
  | .LEFT => if 0 < offset % W then some (position >>> 1) else none
  | .RIGHT => if offset % W < W - 1 then some (position <<< 1) else none

/-- `Helper.Move`: the geometric neighbor, but only when its bit is set in
`board`; otherwise `None`. -/
def Move (H W board position : Nat) (direction : Direction) : Option Nat :=
  match GetPositionAfterMove H W position direction with
  | none => none
  | some newPosition => if newPosition &&& board = 0 then none else some newPosition

theorem encodePosition_eq_pow (W row col : Nat) :
    EncodePosition W row col = 2 ^ (W * row + col) := by
  rw [EncodePosition, Nat.one_shiftLeft]

theorem and_ne_zero_iff (a b : Nat) : a &&& b ≠ 0 ↔ ∃ i, a.testBit i ∧ b.testBit i := by
  constructor
  · intro h
    obtain ⟨i, hi⟩ := Nat.ne_zero_implies_bit_true h
    rw [Nat.testBit_and] at hi
    exact ⟨i, Bool.and_eq_true_iff.mp hi⟩
  · rintro ⟨i, h1, h2⟩ hzero
    have := congrArg (fun n => n.testBit i) hzero
    simp only [Nat.testBit_and, Nat.zero_testBit, Bool.and_eq_true_iff] at this
    rw [h1, h2] at this
    simp at this

/-- Python's `board &= ~position`: keep the bits of `board` that are not in
`position` (on `Nat`, removing the common bits via xor of the intersection). -/
def clearBits (board position : Nat) : Nat := board ^^^ (board &&& position)

theorem testBit_clearBits (board position i : Nat) :
    (clearBits board position).testBit i = (board.testBit i && !position.testBit i) := by
  rw [clearBits, Nat.testBit_xor, Nat.testBit_and]
  cases board.testBit i <;> cases position.testBit i <;> rfl

theorem clearBits_le (board position : Nat) : clearBits board position ≤ board := by
  have hsub : clearBits board position &&& board = clearBits board position := by
    apply Nat.eq_of_testBit_eq
    intro i
    rw [Nat.testBit_and, testBit_clearBits]
    cases board.testBit i <;> cases position.testBit i <;> rfl
  calc clearBits board position = clearBits board position &&& board := hsub.symm
    _ ≤ board := Nat.and_le_right

theorem clearBits_lt (board position : Nat) (h : board &&& position ≠ 0) :
    clearBits board position < board := by
  obtain ⟨i, hb, hp⟩ := (and_ne_zero_iff board position).mp h
  apply Nat.lt_of_le_of_ne (clearBits_le board position)
  intro heq
  have := congrArg (fun n => n.testBit i) heq
  simp only [testBit_clearBits, hb, hp] at this
  simp at this

/-- Entries of the BFS queue whose cell has already been merged into
`visited`; the termination measure counts them. -/
def isStale (board visited e : Nat) : Bool := e &&& clearBits board visited == 0

/-- Number of stale entries in the BFS queue (termination measure component). -/
def staleCount (board visited : Nat) (queue : List Nat) : Nat :=
  queue.countP (isStale board visited)

/-- The nested `visit` closure inside `Helper.IsBoardPossible`: try one
direction from the popped position and append the (unvisited, in-board)
neighbor to the queue. -/
def visitDir (H W board visited : Nat) (queue : List Nat) (p : Nat) (d : Direction) :
    List Nat :=
  match Move H W board p d with
  | none => queue
  | some np => if np ≠ 0 ∧ np &&& visited = 0 then queue ++ [np] else queue

theorem visitDir_cases (H W board visited : Nat) (queue : List Nat) (p : Nat) (d : Direction) :
    visitDir H W board visited queue p d = queue ∨
      ∃ np, Move H W board p d = some np ∧ np &&& visited = 0 ∧ np &&& board ≠ 0 ∧
        visitDir H W board visited queue p d = queue ++ [np] := by
  rw [visitDir]
  cases hmv : Move H W board p d with
  | none => exact Or.inl rfl
  | some np =>
    have hnb : np &&& board ≠ 0 := by
      cases hgp : GetPositionAfterMove H W p d with
      | none => simp only [Move, hgp] at hmv; exact Option.noConfusion hmv
      | some q =>
        simp only [Move, hgp] at hmv
        by_cases hq : q &&& board = 0
        · simp [hq] at hmv
        · simp only [if_neg hq, Option.some.injEq] at hmv
          subst hmv; exact hq
    by_cases hcond : np ≠ 0 ∧ np &&& visited = 0
    · exact Or.inr ⟨np, rfl, hcond.2, hnb, if_pos hcond⟩
    · exact Or.inl (if_neg hcond)

theorem staleCount_visitDir (H W board visited : Nat) (queue : List Nat) (p : Nat)
    (d : Direction) :
    staleCount board visited (visitDir H W board visited queue p d) =
      staleCount board visited queue := by
  rcases visitDir_cases H W board visited queue p d with h | ⟨np, _, hvis, hbd, h⟩
  · rw [h]
  · rw [h, staleCount, List.countP_append, staleCount]
    have hfresh : isStale board visited np = false := by
      rw [isStale, beq_eq_false_iff_ne]
      obtain ⟨i, hni, hbi⟩ := (and_ne_zero_iff np board).mp hbd
      rw [and_ne_zero_iff]
      refine ⟨i, hni, ?_⟩
      rw [testBit_clearBits, hbi]
      have hv : visited.testBit i = false := by
        by_contra hcon
        exact (and_ne_zero_iff np visited).mpr ⟨i, hni, by
          cases hvi : visited.testBit i
          · exact absurd hvi hcon
          · rfl⟩ hvis
      rw [hv]; rfl
    simp [List.countP_cons, hfresh, List.countP_nil]

theorem and_or_stale (board visited p : Nat) (h : p &&& clearBits board visited = 0) :
    board &&& (visited ||| p) = board &&& visited := by
  apply Nat.eq_of_testBit_eq
  intro i
  rw [Nat.testBit_and, Nat.testBit_and, Nat.testBit_or]
  cases hb : board.testBit i <;> cases hv : visited.testBit i <;> cases hp : p.testBit i <;>
    try rfl
  exfalso
  apply (and_ne_zero_iff p (clearBits board visited)).mpr ⟨i, hp, ?_⟩ h
  rw [testBit_clearBits, hb, hv]; rfl

theorem and_lt_fresh (board visited p : Nat) (h : p &&& clearBits board visited ≠ 0) :
    board &&& visited < board &&& (visited ||| p) := by
  obtain ⟨i, hp, hc⟩ := (and_ne_zero_iff p (clearBits board visited)).mp h
  rw [testBit_clearBits, Bool.and_eq_true_iff, Bool.not_eq_true'] at hc
  obtain ⟨hb, hv⟩ := hc
  have hle : board &&& visited ≤ board &&& (visited ||| p) := by
    have hsub : (board &&& visited) &&& (board &&& (visited ||| p)) = board &&& visited := by
      apply Nat.eq_of_testBit_eq
      intro j
      simp only [Nat.testBit_and, Nat.testBit_or]
      cases board.testBit j <;> cases visited.testBit j <;> cases p.testBit j <;> rfl
    calc board &&& visited = (board &&& visited) &&& (board &&& (visited ||| p)) := hsub.symm
      _ ≤ board &&& (visited ||| p) := Nat.and_le_right
  apply Nat.lt_of_le_of_ne hle
  intro heq
  have := congrArg (fun n => n.testBit i) heq
  simp only [Nat.testBit_and, Nat.testBit_or, hb, hv, hp] at this
  simp at this

/-- The connectivity BFS inside `Helper.IsBoardPossible`: pop the queue head,
merge it into `visited_bits`, enqueue unvisited in-board neighbors in the
order Up, Down, Left, Right, and loop until the queue empties; returns the
final `visited_bits`.  Terminates because each iteration either marks a new
board cell or consumes a stale queue entry. -/
def bfs (H W board visited : Nat) (queue : List Nat) : Nat :=
  match queue with
  | [] => visited
  | p :: rest =>
    let visited2 := visited ||| p
    let q1 := visitDir H W board visited2 rest p .UP
    let q2 := visitDir H W board visited2 q1 p .DOWN
    let q3 := visitDir H W board visited2 q2 p .LEFT
    let q4 := visitDir H W board visited2 q3 p .RIGHT
    bfs H W board visited2 q4
termination_by (board - (board &&& visited), staleCount board visited queue)
decreasing_by
  by_cases hfresh : p &&& clearBits board visited = 0
  · apply Prod.Lex.right'
    · rw [and_or_stale board visited p hfresh]
    · have hmask : clearBits board (visited ||| p) = clearBits board visited := by
        rw [clearBits, clearBits, and_or_stale board visited p hfresh]
      have hstale : ∀ q : List Nat, staleCount board (visited ||| p) q =
          staleCount board visited q := by
        intro q
        rw [staleCount, staleCount]
        apply List.countP_congr
        intro e _
        rw [isStale, isStale, hmask]
      rw [staleCount_visitDir, staleCount_visitDir, staleCount_visitDir, staleCount_visitDir,
        hstale]
      have hpstale : isStale board visited p = true := by
        rw [isStale, beq_iff_eq]; exact hfresh
      rw [staleCount, staleCount, List.countP_cons, hpstale]
      simp
  · apply Prod.Lex.left
    have h1 := and_lt_fresh board visited p hfresh
    have h2 : board &&& (visited ||| p) ≤ board := Nat.and_le_left
    omega

/-- `Helper.Size`: count the set cells of `board` by testing the masks
`1 << k` for `k` below `board.bit_length()`. -/
def Size (board : Nat) : Nat :=
  (List.range (bitLength board)).countP (fun k => board &&& (1 <<< k) != 0)

/-- Scan order of the nested `for row ... for col ...` loops used by
`Helper.IsBoardPossible` (and `FindAllPuzzles`): row-major over the grid. -/
def gridCells (H W : Nat) : List (Nat × Nat) :=
  (List.range H).flatMap (fun r => (List.range W).map (fun c => (r, c)))

/-- Accumulation of `num_cells[(row + col) % 2] += 1` in
`Helper.IsBoardPossible`: the number of set cells of parity class `k`. -/
def countParity (H W board k : Nat) : Nat :=
  (gridCells H W).countP
    (fun rc => board &&& EncodePosition W rc.1 rc.2 != 0 && (rc.1 + rc.2) % 2 == k)

/-- The first set cell found by the scan in `Helper.IsBoardPossible`
(`if not visited: visited.append(position)`), as a one-hot position. -/
def firstSetCell (H W board : Nat) : Option Nat :=
  ((gridCells H W).find? (fun rc => board &&& EncodePosition W rc.1 rc.2 != 0)).map
    (fun rc => EncodePosition W rc.1 rc.2)

/-- `Helper.IsBoardPossible`: false for the empty board; false when the two
parity-class populations differ by more than 1; otherwise BFS from the first
set cell and compare the visited bits with the whole board. -/
def IsBoardPossible (H W board : Nat) : Bool :=
  if board = 0 then false
  else
    if 1 < ((countParity H W board 0 : Int) - (countParity H W board 1 : Int)).natAbs then
      false
    else
      board == bfs H W board 0
        (match firstSetCell H W board with
         | some p => [p]
         | none => [])

/-- `Helper._Solve`: the backtracking step.  Returns the Python pair
(success flag, resulting `path` list); the source mutates `path` in place
(append on entry, pop on failure), which the pair threads explicitly. -/
def SolveAux (H W board : Nat) (position : Option Nat) (path : List Nat) :
    Bool × List Nat :=
  match position with
  | none => (false, path)
  | some p =>
    if hbp : board &&& p = 0 then (false, path)
    else if !IsBoardPossible H W board then (false, path)
    else
      let path2 := path ++ [p]
      if Size board = 1 then (true, path2)
      else
        let board2 := clearBits board p
        let r1 := SolveAux H W board2 (Move H W board2 p .UP) path2
        if r1.1 then r1
        else
          let r2 := SolveAux H W board2 (Move H W board2 p .DOWN) r1.2
          if r2.1 then r2
          else
            let r3 := SolveAux H W board2 (Move H W board2 p .LEFT) r2.2
            if r3.1 then r3
            else
              let r4 := SolveAux H W board2 (Move H W board2 p .RIGHT) r3.2
              if r4.1 then r4 else (false, r4.2.dropLast)
termination_by board
decreasing_by
  all_goals exact clearBits_lt board p hbp

/-- `Helper.Solve`: run the backtracking search on an initially empty path and
return the final path (empty on failure). -/
def Solve (H W board position : Nat) : List Nat :=
  (SolveAux H W board (some position) []).2

/-- The `one_row` loop of `Masks.__init__`: a run of `W` one bits. -/
def onesRow (W : Nat) : Nat :=
  (List.range W).foldl (fun acc _ => (acc <<< 1) ||| 1) 0

/-- The `one_col` loop of `Masks.__init__`: bits at `0, W, ..., (H-1)*W`. -/
def onesCol (H W : Nat) : Nat :=
  (List.range H).foldl (fun acc _ => (acc <<< W) ||| 1) 0

/-- `Masks.rows`: the i-th mask extracts the bits of row `i`. -/
def rowMasks (H W : Nat) : List Nat :=
  (List.range H).map (fun i => onesRow W <<< (W * i))

/-- `Masks.cols`: the j-th mask extracts the bits of column `j`. -/
def colMasks (H W : Nat) : List Nat :=
  (List.range W).map (fun j => onesCol H W <<< j)

/-- The `first_non_empty_row` loop of `Helper.DeduplicateBoard`: index of the
first row mask meeting `board` (`H` if none does). -/
def firstNonEmptyRow (H W board : Nat) : Nat :=
  (rowMasks H W).findIdx (fun m => m &&& board != 0)

/-- The `first_non_empty_col` loop of `Helper.DeduplicateBoard`. -/
def firstNonEmptyCol (H W board : Nat) : Nat :=
  (colMasks H W).findIdx (fun m => m &&& board != 0)

/-- `Helper.DeduplicateBoard` (the canonicalizer): shift the shape to the
top-left corner; the empty board is returned unchanged. -/
def DeduplicateBoard (H W board : Nat) : Nat :=
  if board = 0 then board
  else board >>> (firstNonEmptyRow H W board * W + firstNonEmptyCol H W board)

/-- `Helper.GetAllPossibleBoards`: one board per choice of `num` bit positions
out of `range(width * height)` (`itertools.combinations`; `sublistsLen`
produces the same collection of subsets, as sorted lists). -/
def GetAllPossibleBoards (H W num : Nat) : List Nat :=
  ((List.range (W * H)).sublistsLen num).map
    (fun positions => positions.foldl (fun b pos => b ||| (1 <<< pos)) 0)

/-- Fueled mirror of `bfs`, structurally recursive so the kernel can evaluate
it on concrete boards; `none` on fuel exhaustion. -/
def bfsI : Nat → Nat → Nat → Nat → Nat → List Nat → Option Nat
  | 0, _, _, _, _, _ => none
  | fuel + 1, H, W, board, visited, queue =>
    match queue with
    | [] => some visited
    | p :: rest =>
      let visited2 := visited ||| p
      let q1 := visitDir H W board visited2 rest p .UP
      let q2 := visitDir H W board visited2 q1 p .DOWN
      let q3 := visitDir H W board visited2 q2 p .LEFT
      let q4 := visitDir H W board visited2 q3 p .RIGHT
      bfsI fuel H W board visited2 q4

theorem bfsI_sound : ∀ fuel H W board visited queue r,
    bfsI fuel H W board visited queue = some r → bfs H W board visited queue = r := by
  intro fuel
  induction fuel with
  | zero => intro H W board visited queue r h; exact Option.noConfusion h
  | succ fuel ih =>
    intro H W board visited queue r h
    cases queue with
    | nil =>
      simp only [bfsI, Option.some.injEq] at h
      rw [bfs, h]
    | cons p rest =>
      simp only [bfsI] at h
      rw [bfs]
      exact ih H W board _ _ r h

/-- Fueled mirror of `IsBoardPossible` (fuel feeds the BFS). -/
def IsBoardPossibleI (fuel H W board : Nat) : Option Bool :=
  if board = 0 then some false
  else
    if 1 < ((countParity H W board 0 : Int) - (countParity H W board 1 : Int)).natAbs then
      some false
    else
      (bfsI fuel H W board 0
          (match firstSetCell H W board with
           | some p => [p]
           | none => [])).map
        (fun v => board == v)

theorem IsBoardPossibleI_sound (fuel H W board : Nat) (r : Bool)
    (h : IsBoardPossibleI fuel H W board = some r) : IsBoardPossible H W board = r := by
  by_cases h0 : board = 0
  · simp only [IsBoardPossibleI, if_pos h0] at h
    simp only [IsBoardPossible, if_pos h0]
    exact Option.some.inj h
  · by_cases hpar :
        1 < ((countParity H W board 0 : Int) - (countParity H W board 1 : Int)).natAbs
    · simp only [IsBoardPossibleI, if_neg h0, if_pos hpar] at h
      simp only [IsBoardPossible, if_neg h0, if_pos hpar]
      exact Option.some.inj h
    · cases hb : bfsI fuel H W board 0
          (match firstSetCell H W board with
           | some p => [p]
           | none => []) with
      | none =>
        rw [IsBoardPossibleI, if_neg h0, if_neg hpar, hb] at h
        exact Option.noConfusion h
      | some v =>
        rw [IsBoardPossibleI, if_neg h0, if_neg hpar, hb] at h
        have h2 : (board == v) = r := Option.some.inj h
        simp only [IsBoardPossible, if_neg h0, if_neg hpar]
        rw [bfsI_sound fuel H W board 0 _ v hb]
        exact h2

/-- Fueled mirror of `SolveAux` (fuel bounds both the recursion depth and the
inner BFS); `none` on fuel exhaustion. -/
def SolveAuxI : Nat → Nat → Nat → Nat → Option Nat → List Nat → Option (Bool × List Nat)
  | 0, _, _, _, _, _ => none
  | fuel + 1, H, W, board, position, path =>
    match position with
    | none => some (false, path)
    | some p =>
      if board &&& p = 0 then some (false, path)
      else
        match IsBoardPossibleI fuel H W board with
        | none => none
        | some possible =>
          if !possible then some (false, path)
          else
            let path2 := path ++ [p]
            if Size board = 1 then some (true, path2)
            else
              let board2 := clearBits board p
              match SolveAuxI fuel H W board2 (Move H W board2 p .UP) path2 with
              | none => none
              | some r1 =>
                if r1.1 then some r1
                else
                  match SolveAuxI fuel H W board2 (Move H W board2 p .DOWN) r1.2 with
                  | none => none
                  | some r2 =>
                    if r2.1 then some r2
                    else
                      match SolveAuxI fuel H W board2 (Move H W board2 p .LEFT) r2.2 with
                      | none => none
                      | some r3 =>
                        if r3.1 then some r3
                        else
                          match SolveAuxI fuel H W board2 (Move H W board2 p .RIGHT) r3.2 with
                          | none => none
                          | some r4 =>
                            if r4.1 then some r4 else some (false, r4.2.dropLast)

theorem SolveAuxI_sound : ∀ fuel H W board position path r,
    SolveAuxI fuel H W board position path = some r →
      SolveAux H W board position path = r := by
  intro fuel
  induction fuel with
  | zero => intro H W board position path r h; exact Option.noConfusion h
  | succ fuel ih =>
    intro H W board position path r h
    cases position with
    | none =>
      simp only [SolveAuxI, Option.some.injEq] at h
      rw [SolveAux, ← h]
    | some p =>
      by_cases hbp : board &&& p = 0
      · simp only [SolveAuxI, if_pos hbp] at h
        simp only [SolveAux, dif_pos hbp]
        exact Option.some.inj h
      · cases hibp : IsBoardPossibleI fuel H W board with
        | none =>
          rw [SolveAuxI, if_neg hbp, hibp] at h
          exact Option.noConfusion h
        | some possible =>
          have hreal := IsBoardPossibleI_sound fuel H W board possible hibp
          simp only [SolveAuxI, if_neg hbp, hibp] at h
          simp only [SolveAux, dif_neg hbp, hreal]
          cases possible with
          | false =>
            simp only [Bool.not_false, if_true] at h ⊢
            exact Option.some.inj h
          | true =>
            simp only [Bool.not_true] at h ⊢
            rw [if_neg (by simp)] at h
            rw [if_neg (by simp)]
            by_cases hsz : Size board = 1
            · rw [if_pos hsz] at h
              rw [if_pos hsz]
              exact Option.some.inj h
            · rw [if_neg hsz] at h
              rw [if_neg hsz]
              cases h1 : SolveAuxI fuel H W (clearBits board p)
                  (Move H W (clearBits board p) p .UP) (path ++ [p]) with
              | none => rw [h1] at h; exact Option.noConfusion h
              | some r1 =>
                simp only [h1] at h
                rw [ih H W _ _ _ r1 h1]
                by_cases hr1 : r1.1
                · rw [if_pos hr1] at h ⊢
                  exact Option.some.inj h
                · rw [if_neg hr1] at h ⊢
                  cases h2 : SolveAuxI fuel H W (clearBits board p)
                      (Move H W (clearBits board p) p .DOWN) r1.2 with
                  | none => rw [h2] at h; exact Option.noConfusion h
                  | some r2 =>
                    simp only [h2] at h
                    rw [ih H W _ _ _ r2 h2]
                    by_cases hr2 : r2.1
                    · rw [if_pos hr2] at h ⊢
                      exact Option.some.inj h
                    · rw [if_neg hr2] at h ⊢
                      cases h3 : SolveAuxI fuel H W (clearBits board p)
                          (Move H W (clearBits board p) p .LEFT) r2.2 with
                      | none => rw [h3] at h; exact Option.noConfusion h
                      | some r3 =>
                        simp only [h3] at h
                        rw [ih H W _ _ _ r3 h3]
                        by_cases hr3 : r3.1
                        · rw [if_pos hr3] at h ⊢
                          exact Option.some.inj h
                        · rw [if_neg hr3] at h ⊢
                          cases h4 : SolveAuxI fuel H W (clearBits board p)
                              (Move H W (clearBits board p) p .RIGHT) r3.2 with
                          | none => rw [h4] at h; exact Option.noConfusion h
                          | some r4 =>
                            simp only [h4] at h
                            rw [ih H W _ _ _ r4 h4]
                            by_cases hr4 : r4.1
                            · rw [if_pos hr4] at h ⊢
                              exact Option.some.inj h
                            · rw [if_neg hr4] at h ⊢
                              exact Option.some.inj h

theorem Solve_eq_of_SolveAuxI (fuel H W board position : Nat) (r : Bool × List Nat)
    (h : SolveAuxI fuel H W board (some position) [] = some r) :
    Solve H W board position = r.2 := by
  rw [Solve, SolveAuxI_sound fuel H W board (some position) [] r h]

theorem mul_add_div_eq (W row col : Nat) (hc : col < W) : (W * row + col) / W = row := by
  rw [Nat.mul_add_div (by omega), Nat.div_eq_of_lt hc, Nat.add_zero]

theorem mul_add_mod_eq (W row col : Nat) (hc : col < W) : (W * row + col) % W = col := by
  rw [Nat.mul_add_mod, Nat.mod_eq_of_lt hc]

theorem pow_shiftRight (a b : Nat) (h : b ≤ a) : (2 ^ a) >>> b = 2 ^ (a - b) := by
  rw [Nat.shiftRight_eq_div_pow, Nat.pow_div h (by omega)]

theorem pow_shiftLeft (a b : Nat) : (2 ^ a) <<< b = 2 ^ (a + b) := by
  rw [Nat.shiftLeft_eq, Nat.pow_add]

theorem two_pow_and_ne_zero (i board : Nat) : 2 ^ i &&& board ≠ 0 ↔ board.testBit i := by
  rw [and_ne_zero_iff]
  constructor
  · rintro ⟨j, hj, hb⟩
    rw [Nat.testBit_two_pow] at hj
    have : i = j := by
      by_contra hne
      rw [decide_eq_true_eq] at hj
      exact hne hj
    rw [this]; exact hb
  · intro hb
    exact ⟨i, by rw [Nat.testBit_two_pow]; simp, hb⟩

theorem mul_add_lt_mul_iff (W row col k : Nat) (hc : col < W) :
    (W * row + col < W * k ↔ row < k) := by
  constructor
  · intro h
    by_contra hcon
    have hk : k ≤ row := by omega
    have := Nat.mul_le_mul_left W hk
    omega
  · intro h
    have h1 : row + 1 ≤ k := h
    have h2 : W * (row + 1) ≤ W * k := Nat.mul_le_mul_left W h1
    have h3 : W * (row + 1) = W * row + W := by ring
    omega

theorem gpam_up (H W row col : Nat) (hc : col < W) :
    GetPositionAfterMove H W (2 ^ (W * row + col)) .UP =
      if row = 0 then none else some (2 ^ (W * (row - 1) + col)) := by
  simp only [GetPositionAfterMove, bitLength_one_hot]
  by_cases hr : row = 0
  · subst hr
    rw [if_neg (show ¬(W ≤ W * 0 + col) by omega), if_pos rfl]
  · obtain ⟨r, rfl⟩ := Nat.exists_eq_succ_of_ne_zero hr
    have hWr : W * (r + 1) = W * r + W := by ring
    have hcond : W ≤ W * (r + 1) + col := by omega
    rw [if_pos hcond, if_neg (by omega : ¬(r + 1 = 0))]
    congr 1
    rw [pow_shiftRight _ _ hcond]
    congr 1
    have h1 : W * (Nat.succ r - 1) = W * r := by rw [Nat.succ_sub_one]
    have h2 : W * (r + 1 - 1) = W * r := by norm_num
    have h3 : W * Nat.succ r = W * (r + 1) := rfl
    omega

theorem gpam_down (H W row col : Nat) (hr : row < H) (hc : col < W) :
    GetPositionAfterMove H W (2 ^ (W * row + col)) .DOWN =
      if row = H - 1 then none else some (2 ^ (W * (row + 1) + col)) := by
  simp only [GetPositionAfterMove, bitLength_one_hot]
  by_cases hlast : row = H - 1
  · rw [if_neg, if_pos hlast]
    rw [mul_add_lt_mul_iff W row col (H - 1) hc]
    omega
  · rw [if_pos, if_neg hlast]
    · rw [pow_shiftLeft]
      congr 2
      ring
    · rw [mul_add_lt_mul_iff W row col (H - 1) hc]
      omega

theorem gpam_left (H W row col : Nat) (hc : col < W) :
    GetPositionAfterMove H W (2 ^ (W * row + col)) .LEFT =
      if col = 0 then none else some (2 ^ (W * row + (col - 1))) := by
  simp only [GetPositionAfterMove, bitLength_one_hot, mul_add_mod_eq W row col hc]
  by_cases h0 : col = 0
  · rw [if_neg (by omega), if_pos h0]
  · rw [if_pos (by omega), if_neg h0]
    congr 1
    rw [pow_shiftRight _ _ (by omega)]
    congr 1
    omega

theorem gpam_right (H W row col : Nat) (hc : col < W) :
    GetPositionAfterMove H W (2 ^ (W * row + col)) .RIGHT =
      if col = W - 1 then none else some (2 ^ (W * row + (col + 1))) := by
  simp only [GetPositionAfterMove, bitLength_one_hot, mul_add_mod_eq W row col hc]
  by_cases hlast : col = W - 1
  · rw [if_neg (by omega), if_pos hlast]
  · rw [if_pos (by omega), if_neg hlast]
    rw [pow_shiftLeft, Nat.add_assoc]

theorem move_iff (H W board p : Nat) (d : Direction) (n : Nat) :
    Move H W board p d = some n ↔
      GetPositionAfterMove H W p d = some n ∧ n &&& board ≠ 0 := by
  cases hgp : GetPositionAfterMove H W p d with
  | none =>
    simp only [Move, hgp]
    constructor
    · intro h; exact Option.noConfusion h
    · rintro ⟨h, _⟩; exact Option.noConfusion h
  | some q =>
    simp only [Move, hgp]
    by_cases hq : q &&& board = 0
    · rw [if_pos hq]
      constructor
      · intro h; exact Option.noConfusion h
      · rintro ⟨h, hn⟩
        rw [Option.some.inj h] at hq
        exact absurd hq hn
    · rw [if_neg hq]
      constructor
      · intro h
        have hqn : q = n := Option.some.inj h
        subst hqn
        exact ⟨rfl, hq⟩
      · rintro ⟨h, _⟩
        rw [Option.some.inj h]

/-- C7: for every valid coordinate pair, i.e. every `row < H` and `col < W`,
`DecodePosition (EncodePosition row col)` returns exactly `(row, col)`. -/
theorem C7_decode_encode (H W row col : Nat) (hr : row < H) (hc : col < W) :
    DecodePosition W (EncodePosition W row col) = (row, col) := by
  rw [encodePosition_eq_pow]
  simp only [DecodePosition, bitLength_one_hot]
  rw [mul_add_div_eq W row col hc, mul_add_mod_eq W row col hc]

theorem C7_witness : 1 < 2 ∧ 2 < 3 ∧ DecodePosition 3 (EncodePosition 3 1 2) = (1, 2) :=
  ⟨by decide, by decide, C7_decode_encode 2 3 1 2 (by decide) (by decide)⟩

/-- C6 counterexample: `EncodePosition` does not fail on an out-of-range
coordinate.  With `H = W = 2`, the column 2 is outside `[0, W)`, yet
`EncodePosition 0 2` returns the perfectly ordinary one-hot value `4`, the
same value the in-range cell `(1, 0)` encodes to — there is no
`InvalidCoordinate` failure anywhere in the source. -/
theorem C6_counterexample :
    EncodePosition 2 0 2 = EncodePosition 2 1 0 ∧ EncodePosition 2 0 2 = 4 := by
  constructor <;> rfl

/-- C6 (amended): `EncodePosition` performs no range validation; for all
`row`, `col` it returns the one-hot bitset `1 << (W * row + col)`, and when
`row < H` and `col < W` that bit index lies inside the `H * W`-bit board. -/
theorem C6_encode_no_range_check (H W row col : Nat) (hr : row < H) (hc : col < W) :
    (∀ r c : Nat, EncodePosition W r c = 2 ^ (W * r + c)) ∧ W * row + col < H * W := by
  refine ⟨fun r c => encodePosition_eq_pow W r c, ?_⟩
  have h := (mul_add_lt_mul_iff W row col H hc).mpr hr
  rw [Nat.mul_comm H W]
  exact h

theorem C6_witness :
    1 < 2 ∧ 1 < 2 ∧
      ((∀ r c : Nat, EncodePosition 2 r c = 2 ^ (2 * r + c)) ∧ 2 * 1 + 1 < 2 * 2) :=
  ⟨by decide, by decide, C6_encode_no_range_check 2 2 1 1 (by decide) (by decide)⟩

/-- C4: for a one-hot position at grid cell `(row, col)`, the neighbor
computation returns `none` exactly at the boundary (`Up` iff `row = 0`,
`Down` iff `row = H - 1`, `Left` iff `col = 0`, `Right` iff `col = W - 1`) and
otherwise the geometrically adjacent one-hot position; and `Move` returns the
neighbor exactly when the neighbor's bit is set in `board`. -/
theorem C4_neighbor_boundary (H W board row col : Nat) (hr : row < H) (hc : col < W) :
    (GetPositionAfterMove H W (EncodePosition W row col) .UP =
        if row = 0 then none else some (EncodePosition W (row - 1) col)) ∧
    (GetPositionAfterMove H W (EncodePosition W row col) .DOWN =
        if row = H - 1 then none else some (EncodePosition W (row + 1) col)) ∧
    (GetPositionAfterMove H W (EncodePosition W row col) .LEFT =
        if col = 0 then none else some (EncodePosition W row (col - 1))) ∧
    (GetPositionAfterMove H W (EncodePosition W row col) .RIGHT =
        if col = W - 1 then none else some (EncodePosition W row (col + 1))) ∧
    (∀ (d : Direction) (n : Nat),
        Move H W board (EncodePosition W row col) d = some n ↔
          GetPositionAfterMove H W (EncodePosition W row col) d = some n ∧
            n &&& board ≠ 0) := by
  refine ⟨?_, ?_, ?_, ?_, fun d n => move_iff H W board _ d n⟩
  · simp only [encodePosition_eq_pow]
    exact gpam_up H W row col hc
  · simp only [encodePosition_eq_pow]
    exact gpam_down H W row col hr hc
  · simp only [encodePosition_eq_pow]
    exact gpam_left H W row col hc
  · simp only [encodePosition_eq_pow]
    exact gpam_right H W row col hc

theorem C4_witness :
    0 < 2 ∧ 1 < 2 ∧
      GetPositionAfterMove 2 2 (EncodePosition 2 0 1) Direction.UP =
        (if (0 : Nat) = 0 then none else some (EncodePosition 2 (0 - 1) 1)) :=
  ⟨by decide, by decide, (C4_neighbor_boundary 2 2 15 0 1 (by decide) (by decide)).1⟩

/-- C9: whenever `Move` succeeds from a one-hot in-grid position, its result is
again a one-hot position whose bit index is inside the board and whose bit is
set in `board` — `Move` preserves the `Position` invariant and only ever steps
onto currently-set cells. -/
theorem C9_move_preserves_onehot (H W board row col : Nat) (d : Direction) (n : Nat)
    (hr : row < H) (hc : col < W)
    (hmv : Move H W board (EncodePosition W row col) d = some n) :
    ∃ i, i < H * W ∧ n = 2 ^ i ∧ board.testBit i := by
  obtain ⟨hgp, hb⟩ := (move_iff H W board _ d n).mp hmv
  rw [encodePosition_eq_pow] at hgp
  have inBoard : ∀ r c : Nat, r < H → c < W → W * r + c < H * W := by
    intro r c hrH hcW
    have h := (mul_add_lt_mul_iff W r c H hcW).mpr hrH
    rw [Nat.mul_comm H W]
    exact h
  cases d with
  | UP =>
    rw [gpam_up H W row col hc] at hgp
    by_cases h0 : row = 0
    · rw [if_pos h0] at hgp; exact Option.noConfusion hgp
    · rw [if_neg h0] at hgp
      have hn := (Option.some.inj hgp).symm
      refine ⟨W * (row - 1) + col, inBoard _ _ (by omega) hc, hn, ?_⟩
      rw [hn] at hb
      exact (two_pow_and_ne_zero _ board).mp hb
  | DOWN =>
    rw [gpam_down H W row col hr hc] at hgp
    by_cases h0 : row = H - 1
    · rw [if_pos h0] at hgp; exact Option.noConfusion hgp
    · rw [if_neg h0] at hgp
      have hn := (Option.some.inj hgp).symm
      refine ⟨W * (row + 1) + col, inBoard _ _ (by omega) hc, hn, ?_⟩
      rw [hn] at hb
      exact (two_pow_and_ne_zero _ board).mp hb
  | LEFT =>
    rw [gpam_left H W row col hc] at hgp
    by_cases h0 : col = 0
    · rw [if_pos h0] at hgp; exact Option.noConfusion hgp
    · rw [if_neg h0] at hgp
      have hn := (Option.some.inj hgp).symm
      refine ⟨W * row + (col - 1), inBoard _ _ hr (by omega), hn, ?_⟩
      rw [hn] at hb
      exact (two_pow_and_ne_zero _ board).mp hb
  | RIGHT =>
    rw [gpam_right H W row col hc] at hgp
    by_cases h0 : col = W - 1
    · rw [if_pos h0] at hgp; exact Option.noConfusion hgp
    · rw [if_neg h0] at hgp
      have hn := (Option.some.inj hgp).symm
      refine ⟨W * row + (col + 1), inBoard _ _ hr (by omega), hn, ?_⟩
      rw [hn] at hb
      exact (two_pow_and_ne_zero _ board).mp hb

theorem countP_range_eq_card_filter (p : Nat → Bool) (n : Nat) :
    (List.range n).countP p = ((Finset.range n).filter (fun i => p i)).card := by
  induction n with
  | zero => simp
  | succ n ih =>
    rw [List.range_succ, List.countP_append, Finset.range_succ, Finset.filter_insert]
    by_cases hp : p n
    · rw [if_pos (by simp [hp]), Finset.card_insert_of_not_mem (by simp)]
      simp [hp, ih]
    · rw [if_neg (by simp [hp])]
      simp [hp, ih]

/-- The set of bit indices set in `b` (used to reason about `Size`). -/
def bitIndices (b : Nat) : Finset Nat :=
  (Finset.range (bitLength b)).filter (fun i => b.testBit i)

theorem mem_bitIndices (b i : Nat) : i ∈ bitIndices b ↔ b.testBit i := by
  rw [bitIndices, Finset.mem_filter, Finset.mem_range]
  constructor
  · rintro ⟨_, h⟩; exact h
  · intro h; exact ⟨lt_bitLength_of_testBit h, h⟩

theorem size_eq_card (b : Nat) : Size b = (bitIndices b).card := by
  rw [Size, bitIndices]
  rw [countP_range_eq_card_filter]
  congr 1
  apply Finset.filter_congr
  intro i _
  rw [Nat.one_shiftLeft]
  constructor
  · intro h
    have hne : b &&& 2 ^ i ≠ 0 := by
      simpa using h
    rw [Nat.and_comm] at hne
    simp [(two_pow_and_ne_zero i b).mp hne]
  · intro h
    have hb : b.testBit i := by simpa using h
    have := (two_pow_and_ne_zero i b).mpr hb
    rw [Nat.and_comm] at this
    simpa using this

theorem size_pos_of_ne_zero {b : Nat} (hb : b ≠ 0) : 0 < Size b := by
  rw [size_eq_card]
  obtain ⟨i, hi⟩ := Nat.ne_zero_implies_bit_true hb
  exact Finset.card_pos.mpr ⟨i, (mem_bitIndices b i).mpr hi⟩

theorem eq_two_pow_of_size_one {b i : Nat} (hsz : Size b = 1) (hi : b.testBit i) :
    b = 2 ^ i := by
  rw [size_eq_card] at hsz
  obtain ⟨a, ha⟩ := Finset.card_eq_one.mp hsz
  have hia : i = a := by
    have := (mem_bitIndices b i).mpr hi
    rw [ha, Finset.mem_singleton] at this
    exact this
  subst hia
  apply Nat.eq_of_testBit_eq
  intro j
  rw [Nat.testBit_two_pow]
  by_cases hj : j = i
  · subst hj; simp [hi]
  · have : ¬j ∈ bitIndices b := by
      rw [ha, Finset.mem_singleton]
      omega
    rw [mem_bitIndices] at this
    simp only [Bool.not_eq_true] at this
    rw [this]
    simp
    omega

theorem bitIndices_clear_two_pow (b i : Nat) (hi : b.testBit i) :
    bitIndices (clearBits b (2 ^ i)) = (bitIndices b).erase i := by
  apply Finset.ext
  intro j
  rw [mem_bitIndices, Finset.mem_erase, mem_bitIndices, testBit_clearBits,
    Nat.testBit_two_pow]
  by_cases hj : i = j
  · subst hj; simp
  · simp [hj]
    intro _
    omega

theorem size_clear_two_pow (b i : Nat) (hi : b.testBit i) :
    Size (clearBits b (2 ^ i)) = Size b - 1 := by
  rw [size_eq_card, size_eq_card, bitIndices_clear_two_pow b i hi,
    Finset.card_erase_of_mem ((mem_bitIndices b i).mpr hi)]

theorem testBit_orFold (ps : List Nat) (acc i : Nat) :
    (ps.foldl (fun b pos => b ||| (1 <<< pos)) acc).testBit i = true ↔
      acc.testBit i = true ∨ i ∈ ps := by
  induction ps generalizing acc with
  | nil => simp [List.foldl_nil]
  | cons p ps ih =>
    rw [List.foldl_cons, ih]
    rw [Nat.testBit_or, Nat.one_shiftLeft, Nat.testBit_two_pow]
    simp only [Bool.or_eq_true, decide_eq_true_eq, List.mem_cons]
    constructor
    · rintro ((h | h) | h)
      · exact Or.inl h
      · exact Or.inr (Or.inl h.symm)
      · exact Or.inr (Or.inr h)
    · rintro (h | h | h)
      · exact Or.inl (Or.inl h)
      · exact Or.inl (Or.inr h.symm)
      · exact Or.inr h

theorem size_orFold_of_nodup (ps : List Nat) (hnd : ps.Nodup) :
    Size (ps.foldl (fun b pos => b ||| (1 <<< pos)) 0) = ps.length := by
  rw [size_eq_card]
  have hext : bitIndices (ps.foldl (fun b pos => b ||| (1 <<< pos)) 0) = ps.toFinset := by
    apply Finset.ext
    intro j
    rw [mem_bitIndices, List.mem_toFinset, testBit_orFold]
    simp
  rw [hext, List.toFinset_card_of_nodup hnd]

/-- C8: the enumerator yields exactly `C(T, n)` boards for a grid of `T = H*W`
cells, and every yielded board has population (`Size`) exactly `n`. -/
theorem C8_enumerator (H W num : Nat) (hn : num ≤ H * W) :
    (GetAllPossibleBoards H W num).length = Nat.choose (H * W) num ∧
      ∀ b ∈ GetAllPossibleBoards H W num, Size b = num := by
  constructor
  · rw [GetAllPossibleBoards, List.length_map, List.length_sublistsLen, List.length_range,
      Nat.mul_comm W H]
  · intro b hb
    rw [GetAllPossibleBoards, List.mem_map] at hb
    obtain ⟨ps, hps, rfl⟩ := hb
    rw [List.mem_sublistsLen] at hps
    obtain ⟨hsub, hlen⟩ := hps
    have hnodup : ps.Nodup := hsub.nodup (List.nodup_range _)
    rw [size_orFold_of_nodup ps hnodup, hlen]

theorem C8_witness :
    1 ≤ 1 * 2 ∧ (GetAllPossibleBoards 1 2 1).length = Nat.choose (1 * 2) 1 ∧
      ∀ b ∈ GetAllPossibleBoards 1 2 1, Size b = 1 :=
  ⟨by decide, C8_enumerator 1 2 1 (by decide)⟩

theorem two_pow_and_two_pow (i j : Nat) : 2 ^ i &&& 2 ^ j ≠ 0 ↔ i = j := by
  rw [two_pow_and_ne_zero, Nat.testBit_two_pow]
  simp [eq_comm]

theorem mem_gridCells (H W : Nat) (rc : Nat × Nat) :
    rc ∈ gridCells H W ↔ rc.1 < H ∧ rc.2 < W := by
  rw [gridCells, List.mem_flatMap]
  constructor
  · rintro ⟨r, hr, hmem⟩
    rw [List.mem_map] at hmem
    obtain ⟨c, hc, rfl⟩ := hmem
    exact ⟨by simpa using hr, by simpa using hc⟩
  · rintro ⟨h1, h2⟩
    refine ⟨rc.1, by simpa using h1, ?_⟩
    rw [List.mem_map]
    exact ⟨rc.2, by simpa using h2, by simp⟩

theorem gridCells_map_index (H W : Nat) :
    (gridCells H W).map (fun rc => W * rc.1 + rc.2) = List.range (H * W) := by
  induction H with
  | zero => simp [gridCells]
  | succ H ih =>
    have ih2 : ((List.range H).flatMap (fun r => (List.range W).map (fun c => (r, c)))).map
        (fun rc => W * rc.1 + rc.2) = List.range (H * W) := by
      rw [← gridCells]; exact ih
    simp only [gridCells, List.range_succ, List.flatMap_append, List.map_append,
      List.flatMap_cons, List.flatMap_nil, List.append_nil, List.map_map]
    rw [show (H + 1) * W = H * W + W by ring, List.range_add, ih2]
    congr 1
    apply List.map_congr_left
    intro c _
    simp only [Function.comp, Function.comp_apply]
    ring

theorem countParity_eq_range (H W board k : Nat) :
    countParity H W board k =
      (List.range (H * W)).countP
        (fun idx => board &&& (1 <<< idx) != 0 && (idx / W + idx % W) % 2 == k) := by
  rw [countParity, ← gridCells_map_index H W, List.countP_map]
  apply List.countP_congr
  intro rc hmem
  obtain ⟨h1, h2⟩ := (mem_gridCells H W rc).mp hmem
  have e2 : (W * rc.1 + rc.2) / W = rc.1 := mul_add_div_eq W rc.1 rc.2 h2
  have e3 : (W * rc.1 + rc.2) % W = rc.2 := mul_add_mod_eq W rc.1 rc.2 h2
  simp only [Function.comp, e2, e3, EncodePosition]

theorem find?_unique {α : Type} {p : α → Bool} {x : α} : ∀ {l : List α}, x ∈ l →
    p x = true → (∀ y ∈ l, p y = true → y = x) → l.find? p = some x := by
  intro l
  induction l with
  | nil => intro h _ _; exact absurd h (List.not_mem_nil x)
  | cons a l ih =>
    intro hmem hx huniq
    by_cases ha : p a = true
    · rw [List.find?_cons_of_pos _ ha, huniq a (List.mem_cons_self a l) ha]
    · rw [List.find?_cons_of_neg _ (by simpa using ha)]
      have hxl : x ∈ l := by
        cases List.mem_cons.mp hmem with
        | inl h => rw [h] at hx; exact absurd hx ha
        | inr h => exact h
      exact ih hxl hx (fun y hy hpy => huniq y (List.mem_cons_of_mem a hy) hpy)

theorem pos_width_of_lt (H W i : Nat) (hi : i < H * W) : 0 < W := by
  by_contra h
  have hw : W = 0 := by omega
  subst hw
  simp at hi

theorem firstSetCell_two_pow (H W i : Nat) (hi : i < H * W) :
    firstSetCell H W (2 ^ i) = some (2 ^ i) := by
  have hW : 0 < W := pos_width_of_lt H W i hi
  have hc : i % W < W := Nat.mod_lt _ hW
  have hr : i / W < H := (Nat.div_lt_iff_lt_mul hW).mpr hi
  have hrec : W * (i / W) + i % W = i := Nat.div_add_mod i W
  rw [firstSetCell]
  have hfind : (gridCells H W).find?
      (fun rc => 2 ^ i &&& EncodePosition W rc.1 rc.2 != 0) = some (i / W, i % W) := by
    apply find?_unique
    · exact (mem_gridCells H W _).mpr ⟨hr, hc⟩
    · simp only [encodePosition_eq_pow]
      rw [bne_iff_ne]
      rw [hrec]
      rw [Nat.and_self]
      exact (Nat.two_pow_pos i).ne'
    · intro y hy hpy
      obtain ⟨hy1, hy2⟩ := (mem_gridCells H W y).mp hy
      simp only [encodePosition_eq_pow, bne_iff_ne] at hpy
      have hidx : i = W * y.1 + y.2 := (two_pow_and_two_pow i (W * y.1 + y.2)).mp hpy
      have ha : y.1 = i / W := by rw [hidx, mul_add_div_eq W y.1 y.2 hy2]
      have hb : y.2 = i % W := by rw [hidx, mul_add_mod_eq W y.1 y.2 hy2]
      rw [← ha, ← hb]
  rw [hfind]
  simp only [Option.map_some']
  rw [encodePosition_eq_pow, hrec]

theorem countParity_two_pow (H W i k : Nat) (hi : i < H * W) :
    countParity H W (2 ^ i) k = if (i / W + i % W) % 2 = k then 1 else 0 := by
  rw [countParity_eq_range]
  by_cases hpar : (i / W + i % W) % 2 = k
  · rw [if_pos hpar]
    have hcong : (List.range (H * W)).countP
        (fun idx => 2 ^ i &&& (1 <<< idx) != 0 && (idx / W + idx % W) % 2 == k) =
          (List.range (H * W)).countP (fun idx => idx == i) := by
      apply List.countP_congr
      intro idx _
      simp only [Nat.one_shiftLeft, bne_iff_ne, Bool.and_eq_true, decide_eq_true_eq,
        beq_iff_eq]
      constructor
      · rintro ⟨hand, _⟩
        exact ((two_pow_and_two_pow i idx).mp hand).symm
      · rintro rfl
        exact ⟨(two_pow_and_two_pow _ _).mpr rfl, hpar⟩
    rw [hcong]
    have : (List.range (H * W)).countP (fun idx => idx == i) =
        (List.range (H * W)).count i := rfl
    rw [this, List.count_eq_one_of_mem (List.nodup_range _) (List.mem_range.mpr hi)]
  · rw [if_neg hpar]
    rw [List.countP_eq_zero]
    intro idx _
    simp only [Nat.one_shiftLeft, bne_iff_ne, Bool.and_eq_true, decide_eq_true_eq,
      beq_iff_eq, not_and]
    intro hand
    have : i = idx := (two_pow_and_two_pow i idx).mp hand
    rw [← this]
    exact hpar

theorem size_two_pow (i : Nat) : Size (2 ^ i) = 1 := by
  rw [size_eq_card]
  have : bitIndices (2 ^ i) = {i} := by
    apply Finset.ext
    intro j
    rw [mem_bitIndices, Nat.testBit_two_pow, Finset.mem_singleton]
    simp [eq_comm]
  rw [this, Finset.card_singleton]

theorem gpam_shape (H W a : Nat) (d : Direction) (np : Nat)
    (h : GetPositionAfterMove H W (2 ^ a) d = some np) : ∃ j, np = 2 ^ j := by
  cases d <;> simp only [GetPositionAfterMove, bitLength_one_hot] at h
  · by_cases hcond : W ≤ a
    · rw [if_pos hcond] at h
      exact ⟨a - W, by rw [← Option.some.inj h, pow_shiftRight a W hcond]⟩
    · rw [if_neg hcond] at h; exact Option.noConfusion h
  · by_cases hcond : a < W * (H - 1)
    · rw [if_pos hcond] at h
      exact ⟨a + W, by rw [← Option.some.inj h, pow_shiftLeft]⟩
    · rw [if_neg hcond] at h; exact Option.noConfusion h
  · by_cases hcond : 0 < a % W
    · rw [if_pos hcond] at h
      have ha : 1 ≤ a := by
        by_contra hc
        have : a = 0 := by omega
        subst this
        simp at hcond
      exact ⟨a - 1, by rw [← Option.some.inj h, pow_shiftRight a 1 ha]⟩
    · rw [if_neg hcond] at h; exact Option.noConfusion h
  · by_cases hcond : a % W < W - 1
    · rw [if_pos hcond] at h
      exact ⟨a + 1, by rw [← Option.some.inj h, pow_shiftLeft]⟩
    · rw [if_neg hcond] at h; exact Option.noConfusion h

theorem visitDir_singleton (H W i : Nat) (q : List Nat) (d : Direction) :
    visitDir H W (2 ^ i) (2 ^ i) q (2 ^ i) d = q := by
  cases hmv : Move H W (2 ^ i) (2 ^ i) d with
  | none => simp only [visitDir, hmv]
  | some np =>
    obtain ⟨hgp, hand⟩ := (move_iff H W (2 ^ i) (2 ^ i) d np).mp hmv
    obtain ⟨j, rfl⟩ := gpam_shape H W i d np hgp
    have hj : j = i := (two_pow_and_two_pow j i).mp hand
    subst hj
    simp only [visitDir, hmv]
    rw [if_neg]
    rintro ⟨_, h2⟩
    rw [Nat.and_self] at h2
    exact (Nat.two_pow_pos j).ne' h2

theorem bfs_two_pow (H W i : Nat) : bfs H W (2 ^ i) 0 [2 ^ i] = 2 ^ i := by
  rw [bfs]
  simp only [Nat.zero_or]
  rw [visitDir_singleton, visitDir_singleton, visitDir_singleton, visitDir_singleton]
  rw [bfs]

/-- C10: a board with exactly one set bit (inside the grid) is possible, and
solving it from its unique cell returns the singleton path. -/
theorem C10_single_cell (H W i : Nat) (hi : i < H * W) :
    IsBoardPossible H W (2 ^ i) = true ∧ Solve H W (2 ^ i) (2 ^ i) = [2 ^ i] := by
  have hpow0 : (2 : Nat) ^ i ≠ 0 := (Nat.two_pow_pos i).ne'
  have hposs : IsBoardPossible H W (2 ^ i) = true := by
    rw [IsBoardPossible, if_neg hpow0]
    rw [countParity_two_pow H W i 0 hi, countParity_two_pow H W i 1 hi]
    have hpar : ¬(1 < (((if (i / W + i % W) % 2 = 0 then 1 else 0 : Nat) : Int) -
        ((if (i / W + i % W) % 2 = 1 then 1 else 0 : Nat) : Int)).natAbs) := by
      rcases Nat.mod_two_eq_zero_or_one (i / W + i % W) with h | h
      · rw [if_pos h, if_neg (by omega)]
        decide
      · rw [if_neg (by omega), if_pos h]
        decide
    rw [if_neg hpar]
    simp only [firstSetCell_two_pow H W i hi]
    rw [bfs_two_pow]
    simp
  refine ⟨hposs, ?_⟩
  rw [Solve]
  have hand : ¬(2 ^ i &&& 2 ^ i = 0) := by
    rw [Nat.and_self]; exact hpow0
  simp only [SolveAux, dif_neg hand, hposs, Bool.not_true]
  rw [if_neg (by simp)]
  rw [if_pos (size_two_pow i)]
  simp

theorem C10_witness :
    3 < 2 * 2 ∧ IsBoardPossible 2 2 (2 ^ 3) = true ∧
      Solve 2 2 (2 ^ 3) (2 ^ 3) = [2 ^ 3] :=
  ⟨by decide, C10_single_cell 2 2 3 (by decide)⟩

theorem solveAux_fail_path : ∀ (board H W : Nat) (position : Option Nat) (path : List Nat),
    (SolveAux H W board position path).1 = false →
      (SolveAux H W board position path).2 = path := by
  intro board
  induction board using Nat.strong_induction_on with
  | _ board ih =>
    intro H W position path h
    cases position with
    | none => simp [SolveAux]
    | some p =>
      by_cases hbp : board &&& p = 0
      · simp [SolveAux, dif_pos hbp]
      · cases hposs : IsBoardPossible H W board with
        | false =>
          simp only [SolveAux, dif_neg hbp, hposs, Bool.not_false, if_true]
        | true =>
          simp only [SolveAux, dif_neg hbp, hposs, Bool.not_true] at h ⊢
          rw [if_neg (by simp)] at h ⊢
          by_cases hsz : Size board = 1
          · rw [if_pos hsz] at h
            exact absurd h (by simp)
          · rw [if_neg hsz] at h ⊢
            have hlt := clearBits_lt board p hbp
            by_cases hr1 : (SolveAux H W (clearBits board p)
                (Move H W (clearBits board p) p .UP) (path ++ [p])).1 = true
            · rw [if_pos hr1] at h
              rw [hr1] at h
              exact absurd h (by simp)
            · rw [if_neg hr1] at h ⊢
              have e1 := ih _ hlt H W (Move H W (clearBits board p) p .UP) (path ++ [p])
                (by simpa using hr1)
              rw [e1] at h ⊢
              by_cases hr2 : (SolveAux H W (clearBits board p)
                  (Move H W (clearBits board p) p .DOWN) (path ++ [p])).1 = true
              · rw [if_pos hr2] at h
                rw [hr2] at h
                exact absurd h (by simp)
              · rw [if_neg hr2] at h ⊢
                have e2 := ih _ hlt H W (Move H W (clearBits board p) p .DOWN) (path ++ [p])
                  (by simpa using hr2)
                rw [e2] at h ⊢
                by_cases hr3 : (SolveAux H W (clearBits board p)
                    (Move H W (clearBits board p) p .LEFT) (path ++ [p])).1 = true
                · rw [if_pos hr3] at h
                  rw [hr3] at h
                  exact absurd h (by simp)
                · rw [if_neg hr3] at h ⊢
                  have e3 := ih _ hlt H W (Move H W (clearBits board p) p .LEFT) (path ++ [p])
                    (by simpa using hr3)
                  rw [e3] at h ⊢
                  by_cases hr4 : (SolveAux H W (clearBits board p)
                      (Move H W (clearBits board p) p .RIGHT) (path ++ [p])).1 = true
                  · rw [if_pos hr4] at h
                    rw [hr4] at h
                    exact absurd h (by simp)
                  · rw [if_neg hr4] at h ⊢
                    have e4 := ih _ hlt H W (Move H W (clearBits board p) p .RIGHT)
                      (path ++ [p]) (by simpa using hr4)
                    rw [e4]
                    simp [List.dropLast_concat]

/-- Geometric grid adjacency: one cell is a single Up/Down/Left/Right move
from the other. -/
def adjacentStep (H W q q2 : Nat) : Prop :=
  ∃ d, GetPositionAfterMove H W q d = some q2

/-- What it means for `tail` to be a Hamiltonian traversal of `board` starting
at `p`: right length, consecutive cells grid-adjacent, all elements one-hot
set cells, covering every set cell, without repetition. -/
def IsHamiltonianTail (H W board p : Nat) (tail : List Nat) : Prop :=
  tail.length = Size board ∧
  tail.Chain' (adjacentStep H W) ∧
  (∀ q ∈ tail, ∃ j, q = 2 ^ j ∧ board.testBit j = true) ∧
  (∀ j, board.testBit j = true → 2 ^ j ∈ tail) ∧
  tail.Nodup ∧
  tail.head? = some p

theorem testBit_of_and_two_pow {board p i : Nat} (hp : p = 2 ^ i)
    (hbp : board &&& p ≠ 0) : board.testBit i = true := by
  rw [hp, Nat.and_comm] at hbp
  exact (two_pow_and_ne_zero i board).mp hbp

theorem board_ne_zero_of_and {board p : Nat} (hbp : board &&& p ≠ 0) : board ≠ 0 := by
  intro h
  rw [h, Nat.zero_and] at hbp
  exact hbp rfl

theorem solveAux_success : ∀ (board H W p : Nat) (path out : List Nat),
    (∃ i, p = 2 ^ i) →
    SolveAux H W board (some p) path = (true, out) →
    ∃ tail, out = path ++ tail ∧ IsHamiltonianTail H W board p tail := by
  intro board
  induction board using Nat.strong_induction_on with
  | _ board ih =>
    intro H W p path out hshape h
    obtain ⟨i, rfl⟩ := hshape
    by_cases hbp : board &&& 2 ^ i = 0
    · simp only [SolveAux, dif_pos hbp] at h
      exact absurd (congrArg Prod.fst h) (by simp)
    · have hset : board.testBit i = true := testBit_of_and_two_pow rfl hbp
      have hbne : board ≠ 0 := board_ne_zero_of_and hbp
      have hszpos : 0 < Size board := size_pos_of_ne_zero hbne
      cases hposs : IsBoardPossible H W board with
      | false =>
        simp only [SolveAux, dif_neg hbp, hposs, Bool.not_false, if_true] at h
        exact absurd (congrArg Prod.fst h) (by simp)
      | true =>
        simp only [SolveAux, dif_neg hbp, hposs, Bool.not_true] at h
        rw [if_neg (by simp)] at h
        by_cases hsz : Size board = 1
        · rw [if_pos hsz] at h
          have hout : out = path ++ [2 ^ i] := (congrArg Prod.snd h).symm
          have hboard : board = 2 ^ i := eq_two_pow_of_size_one hsz hset
          refine ⟨[2 ^ i], hout, ?_, ?_, ?_, ?_, ?_, rfl⟩
          · simp [hsz]
          · simp [List.chain'_singleton]
          · intro q hq
            rw [List.mem_singleton] at hq
            exact ⟨i, hq, hset⟩
          · intro j hj
            rw [hboard, Nat.testBit_two_pow] at hj
            rw [List.mem_singleton]
            have : i = j := by simpa using hj
            rw [this]
          · exact List.nodup_singleton _
        · rw [if_neg hsz] at h
          have hlt := clearBits_lt board (2 ^ i) hbp
          have hsz2 : Size (clearBits board (2 ^ i)) = Size board - 1 :=
            size_clear_two_pow board i hset
          have hcleared : (clearBits board (2 ^ i)).testBit i = false := by
            rw [testBit_clearBits, Nat.testBit_two_pow]
            simp
          -- building the tail from a successful recursive call in direction d
          have hbuild : ∀ (d : Direction) (out2 : List Nat),
              SolveAux H W (clearBits board (2 ^ i))
                  (Move H W (clearBits board (2 ^ i)) (2 ^ i) d) (path ++ [2 ^ i]) =
                (true, out2) →
              ∃ tail, out2 = path ++ tail ∧ IsHamiltonianTail H W board (2 ^ i) tail := by
            intro d out2 hS
            cases hmv : Move H W (clearBits board (2 ^ i)) (2 ^ i) d with
            | none =>
              rw [hmv] at hS
              simp only [SolveAux] at hS
              exact absurd (congrArg Prod.fst hS) (by simp)
            | some np =>
              rw [hmv] at hS
              obtain ⟨hgp, hand⟩ :=
                (move_iff H W (clearBits board (2 ^ i)) (2 ^ i) d np).mp hmv
              obtain ⟨j, rfl⟩ := gpam_shape H W i d np hgp
              obtain ⟨tail2, hout2, hlen2, hchain2, helem2, hcover2, hnodup2, hhead2⟩ :=
                ih _ hlt H W (2 ^ j) (path ++ [2 ^ i]) out2 ⟨j, rfl⟩ hS
              have hsetj : (clearBits board (2 ^ i)).testBit j = true := by
                rw [Nat.and_comm] at hand
                exact testBit_of_and_two_pow rfl hand
              refine ⟨2 ^ i :: tail2, by simpa using hout2, ?_, ?_, ?_, ?_, ?_, rfl⟩
              · simp only [List.length_cons, hlen2, hsz2]
                omega
              · rw [List.chain'_cons']
                refine ⟨?_, hchain2⟩
                intro b hb
                rw [hhead2] at hb
                have hbj : b = 2 ^ j := by
                  have := hb
                  simp only [Option.mem_def, Option.some.injEq] at this
                  exact this.symm
                rw [hbj]
                exact ⟨d, hgp⟩
              · intro q hq
                rcases List.mem_cons.mp hq with hq | hq
                · exact ⟨i, hq, hset⟩
                · obtain ⟨j2, hj2, hj2b⟩ := helem2 q hq
                  refine ⟨j2, hj2, ?_⟩
                  rw [testBit_clearBits] at hj2b
                  exact (Bool.and_eq_true_iff.mp hj2b).1
              · intro j2 hj2
                by_cases hij : j2 = i
                · rw [hij]
                  exact List.mem_cons_self _ _
                · have : (clearBits board (2 ^ i)).testBit j2 = true := by
                    rw [testBit_clearBits, hj2, Nat.testBit_two_pow]
                    simp
                    omega
                  exact List.mem_cons_of_mem _ (hcover2 j2 this)
              · rw [List.nodup_cons]
                refine ⟨?_, hnodup2⟩
                intro hmem
                obtain ⟨j2, hj2, hj2b⟩ := helem2 _ hmem
                have hij : i = j2 :=
                  Nat.pow_right_injective (by omega) hj2
                rw [← hij] at hj2b
                rw [hcleared] at hj2b
                exact Bool.false_ne_true hj2b
          -- walk the four-direction if chain
          by_cases hr1 : (SolveAux H W (clearBits board (2 ^ i))
              (Move H W (clearBits board (2 ^ i)) (2 ^ i) .UP) (path ++ [2 ^ i])).1 = true
          · rw [if_pos hr1] at h
            exact hbuild .UP out h
          · rw [if_neg hr1] at h
            have e1 := solveAux_fail_path (clearBits board (2 ^ i)) H W
              (Move H W (clearBits board (2 ^ i)) (2 ^ i) .UP) (path ++ [2 ^ i])
              (by simpa using hr1)
            rw [e1] at h
            by_cases hr2 : (SolveAux H W (clearBits board (2 ^ i))
                (Move H W (clearBits board (2 ^ i)) (2 ^ i) .DOWN)
                (path ++ [2 ^ i])).1 = true
            · rw [if_pos hr2] at h
              exact hbuild .DOWN out h
            · rw [if_neg hr2] at h
              have e2 := solveAux_fail_path (clearBits board (2 ^ i)) H W
                (Move H W (clearBits board (2 ^ i)) (2 ^ i) .DOWN) (path ++ [2 ^ i])
                (by simpa using hr2)
              rw [e2] at h
              by_cases hr3 : (SolveAux H W (clearBits board (2 ^ i))
                  (Move H W (clearBits board (2 ^ i)) (2 ^ i) .LEFT)
                  (path ++ [2 ^ i])).1 = true
              · rw [if_pos hr3] at h
                exact hbuild .LEFT out h
              · rw [if_neg hr3] at h
                have e3 := solveAux_fail_path (clearBits board (2 ^ i)) H W
                  (Move H W (clearBits board (2 ^ i)) (2 ^ i) .LEFT) (path ++ [2 ^ i])
                  (by simpa using hr3)
                rw [e3] at h
                by_cases hr4 : (SolveAux H W (clearBits board (2 ^ i))
                    (Move H W (clearBits board (2 ^ i)) (2 ^ i) .RIGHT)
                    (path ++ [2 ^ i])).1 = true
                · rw [if_pos hr4] at h
                  exact hbuild .RIGHT out h
                · rw [if_neg hr4] at h
                  exact absurd (congrArg Prod.fst h) (by simp)

theorem testBit_lt_bound {board N i : Nat} (hb : board < 2 ^ N)
    (h : board.testBit i = true) : i < N := by
  by_contra hcon
  have hle : N ≤ i := by omega
  have : board < 2 ^ i := lt_of_lt_of_le hb (Nat.pow_le_pow_right (by omega) hle)
  rw [Nat.testBit_lt_two_pow this] at h
  exact Bool.false_ne_true h

theorem onesRow_succ (W : Nat) : onesRow (W + 1) = (onesRow W <<< 1) ||| 1 := by
  rw [onesRow, List.range_succ, List.foldl_append, ← onesRow]
  rfl

theorem testBit_onesRow (W t : Nat) : (onesRow W).testBit t = decide (t < W) := by
  induction W generalizing t with
  | zero => simp [onesRow]
  | succ W ih =>
    rw [onesRow_succ, Nat.testBit_or, Nat.testBit_shiftLeft]
    have h1 : ∀ s : Nat, (1 : Nat).testBit (s + 1) = false := by
      intro s
      rw [show (1 : Nat) = 2 ^ 0 by rfl, Nat.testBit_two_pow]
      simp
    cases t with
    | zero => simp
    | succ s =>
      rw [h1 s]
      simp only [ge_iff_le, Nat.le_add_left, Nat.add_sub_cancel, Bool.or_false, ih s]
      by_cases h : s < W
      · rw [decide_eq_true h, decide_eq_true (show s + 1 < W + 1 by omega)]
        simp
      · rw [decide_eq_false h, decide_eq_false (show ¬(s + 1 < W + 1) by omega)]
        simp

theorem onesCol_succ (H W : Nat) : onesCol (H + 1) W = (onesCol H W <<< W) ||| 1 := by
  rw [onesCol, List.range_succ, List.foldl_append, ← onesCol]
  rfl

theorem testBit_onesCol (H W t : Nat) :
    (onesCol H W).testBit t = true ↔ ∃ k, k < H ∧ t = W * k := by
  induction H generalizing t with
  | zero =>
    simp [onesCol]
  | succ H ih =>
    rw [onesCol_succ, Nat.testBit_or, Nat.testBit_shiftLeft]
    by_cases ht : t = 0
    · subst ht
      have h1 : (1 : Nat).testBit 0 = true := by decide
      rw [h1]
      simp only [Bool.or_true, true_iff]
      exact ⟨0, by omega, by omega⟩
    · obtain ⟨s, rfl⟩ := Nat.exists_eq_succ_of_ne_zero ht
      have h1 : (1 : Nat).testBit (s + 1) = false := by
        rw [show (1 : Nat) = 2 ^ 0 by rfl, Nat.testBit_two_pow]
        simp
      rw [h1, Bool.or_false, Bool.and_eq_true, decide_eq_true_eq, ih]
      constructor
      · rintro ⟨hW, k, hk, hkt⟩
        refine ⟨k + 1, by omega, ?_⟩
        have : W * (k + 1) = W * k + W := by ring
        omega
      · rintro ⟨k, hk, hkt⟩
        have hW0 : W ≠ 0 := by
          intro h0
          rw [h0] at hkt
          omega
        have hk0 : k ≠ 0 := by
          intro h0
          rw [h0] at hkt
          omega
        obtain ⟨k2, rfl⟩ := Nat.exists_eq_succ_of_ne_zero hk0
        have hmul : W * (k2 + 1) = W * k2 + W := by ring
        have hs : W * Nat.succ k2 = W * (k2 + 1) := rfl
        refine ⟨by omega, k2, by omega, by omega⟩

theorem rowMask_inter (W board r : Nat) :
    (onesRow W <<< (W * r)) &&& board ≠ 0 ↔
      ∃ c, c < W ∧ board.testBit (W * r + c) = true := by
  rw [and_ne_zero_iff]
  constructor
  · rintro ⟨t, hmask, hb⟩
    rw [Nat.testBit_shiftLeft, Bool.and_eq_true, decide_eq_true_eq] at hmask
    obtain ⟨hge, hbit⟩ := hmask
    rw [testBit_onesRow, decide_eq_true_eq] at hbit
    refine ⟨t - W * r, hbit, ?_⟩
    rw [show W * r + (t - W * r) = t by omega]
    exact hb
  · rintro ⟨c, hc, hb⟩
    refine ⟨W * r + c, ?_, hb⟩
    rw [Nat.testBit_shiftLeft, Bool.and_eq_true, decide_eq_true_eq]
    refine ⟨by omega, ?_⟩
    rw [show W * r + c - W * r = c by omega, testBit_onesRow, decide_eq_true_eq]
    exact hc

theorem colMask_inter (H W board j : Nat) :
    (onesCol H W <<< j) &&& board ≠ 0 ↔
      ∃ k, k < H ∧ board.testBit (W * k + j) = true := by
  rw [and_ne_zero_iff]
  constructor
  · rintro ⟨t, hmask, hb⟩
    rw [Nat.testBit_shiftLeft, Bool.and_eq_true, decide_eq_true_eq] at hmask
    obtain ⟨hge, hbit⟩ := hmask
    obtain ⟨k, hk, hkt⟩ := (testBit_onesCol H W (t - j)).mp hbit
    refine ⟨k, hk, ?_⟩
    rw [show W * k + j = t by omega]
    exact hb
  · rintro ⟨k, hk, hb⟩
    refine ⟨W * k + j, ?_, hb⟩
    rw [Nat.testBit_shiftLeft, Bool.and_eq_true, decide_eq_true_eq]
    refine ⟨by omega, ?_⟩
    rw [show W * k + j - j = W * k by omega]
    exact (testBit_onesCol H W (W * k)).mpr ⟨k, hk, rfl⟩

theorem firstNonEmptyRow_spec (H W board : Nat) (hne : board ≠ 0)
    (hlt : board < 2 ^ (H * W)) :
    firstNonEmptyRow H W board < H ∧
      (∃ c, c < W ∧ board.testBit (W * firstNonEmptyRow H W board + c) = true) ∧
      (∀ i, board.testBit i = true → firstNonEmptyRow H W board ≤ i / W) := by
  obtain ⟨i0, hi0⟩ := Nat.ne_zero_implies_bit_true hne
  have hi0lt : i0 < H * W := testBit_lt_bound hlt hi0
  have hW : 0 < W := pos_width_of_lt H W i0 hi0lt
  have hrow : i0 / W < H := (Nat.div_lt_iff_lt_mul hW).mpr hi0lt
  have hcol : i0 % W < W := Nat.mod_lt _ hW
  have hdm : W * (i0 / W) + i0 % W = i0 := Nat.div_add_mod i0 W
  have hlen : (rowMasks H W).length = H := by simp [rowMasks]
  have hex : ∃ x ∈ rowMasks H W, (x &&& board != 0) = true := by
    refine ⟨onesRow W <<< (W * (i0 / W)), ?_, ?_⟩
    · rw [rowMasks, List.mem_map]
      exact ⟨i0 / W, List.mem_range.mpr hrow, rfl⟩
    · rw [bne_iff_ne]
      exact (rowMask_inter W board (i0 / W)).mpr ⟨i0 % W, hcol, by rw [hdm]; exact hi0⟩
  have hfound := List.findIdx_lt_length_of_exists hex
  have hfrH : firstNonEmptyRow H W board < H := by
    rw [firstNonEmptyRow]
    rw [hlen] at hfound
    exact hfound
  refine ⟨hfrH, ?_, ?_⟩
  · have hp := @List.findIdx_getElem _ (fun m => m &&& board != 0) (rowMasks H W) hfound
    simp only [rowMasks, List.getElem_map, List.getElem_range, bne_iff_ne] at hp
    obtain ⟨c, hc, hbit⟩ := (rowMask_inter W board _).mp hp
    exact ⟨c, hc, hbit⟩
  · intro i hi
    by_contra hcon
    have hilt : i < H * W := testBit_lt_bound hlt hi
    have hirow : i / W < H := (Nat.div_lt_iff_lt_mul hW).mpr hilt
    have hlt2 : i / W < (rowMasks H W).findIdx (fun m => m &&& board != 0) := by
      rw [firstNonEmptyRow] at hcon
      omega
    have hb := List.not_of_lt_findIdx hlt2
    simp only [rowMasks, List.getElem_map, List.getElem_range] at hb
    have hzero : onesRow W <<< (W * (i / W)) &&& board = 0 := by
      rw [bne_eq_false_iff_eq] at hb
      exact hb
    exact (rowMask_inter W board (i / W)).mpr
      ⟨i % W, Nat.mod_lt _ hW, by rw [Nat.div_add_mod i W]; exact hi⟩ hzero

theorem firstNonEmptyCol_spec (H W board : Nat) (hne : board ≠ 0)
    (hlt : board < 2 ^ (H * W)) :
    firstNonEmptyCol H W board < W ∧
      (∃ k, k < H ∧ board.testBit (W * k + firstNonEmptyCol H W board) = true) ∧
      (∀ i, board.testBit i = true → firstNonEmptyCol H W board ≤ i % W) := by
  obtain ⟨i0, hi0⟩ := Nat.ne_zero_implies_bit_true hne
  have hi0lt : i0 < H * W := testBit_lt_bound hlt hi0
  have hW : 0 < W := pos_width_of_lt H W i0 hi0lt
  have hrow : i0 / W < H := (Nat.div_lt_iff_lt_mul hW).mpr hi0lt
  have hcol : i0 % W < W := Nat.mod_lt _ hW
  have hdm : W * (i0 / W) + i0 % W = i0 := Nat.div_add_mod i0 W
  have hlen : (colMasks H W).length = W := by simp [colMasks]
  have hex : ∃ x ∈ colMasks H W, (x &&& board != 0) = true := by
    refine ⟨onesCol H W <<< (i0 % W), ?_, ?_⟩
    · rw [colMasks, List.mem_map]
      exact ⟨i0 % W, List.mem_range.mpr hcol, rfl⟩
    · rw [bne_iff_ne]
      exact (colMask_inter H W board (i0 % W)).mpr ⟨i0 / W, hrow, by rw [hdm]; exact hi0⟩
  have hfound := List.findIdx_lt_length_of_exists hex
  have hfcW : firstNonEmptyCol H W board < W := by
    rw [firstNonEmptyCol]
    rw [hlen] at hfound
    exact hfound
  refine ⟨hfcW, ?_, ?_⟩
  · have hp := @List.findIdx_getElem _ (fun m => m &&& board != 0) (colMasks H W) hfound
    simp only [colMasks, List.getElem_map, List.getElem_range, bne_iff_ne] at hp
    obtain ⟨k, hk, hbit⟩ := (colMask_inter H W board _).mp hp
    exact ⟨k, hk, hbit⟩
  · intro i hi
    by_contra hcon
    have hilt : i < H * W := testBit_lt_bound hlt hi
    have hirow : i / W < H := (Nat.div_lt_iff_lt_mul hW).mpr hilt
    have hlt2 : i % W < (colMasks H W).findIdx (fun m => m &&& board != 0) := by
      rw [firstNonEmptyCol] at hcon
      omega
    have hb := List.not_of_lt_findIdx hlt2
    simp only [colMasks, List.getElem_map, List.getElem_range] at hb
    have hzero : onesCol H W <<< (i % W) &&& board = 0 := by
      rw [bne_eq_false_iff_eq] at hb
      exact hb
    exact (colMask_inter H W board (i % W)).mpr
      ⟨i / W, hirow, by rw [Nat.div_add_mod i W]; exact hi⟩ hzero

/-- Spec-side notion (for the refinement claim about `IsBoardPossible`): two
cell indices are one unit horizontal or vertical move apart — same row and
adjacent columns, or same column and adjacent rows. -/
def specAdjacent (W i j : Nat) : Prop :=
  (i / W = j / W ∧ (j = i + 1 ∨ i = j + 1)) ∨ (j = i + W ∨ i = j + W)

/-- Spec-side step relation: a unit move between two set cells. -/
def specStep (board W i j : Nat) : Prop :=
  board.testBit i = true ∧ board.testBit j = true ∧ specAdjacent W i j

/-- Spec-side reachability through set cells. -/
def Reachable (board W : Nat) : Nat → Nat → Prop :=
  Relation.ReflTransGen (fun i j => specStep board W i j)

/-- Spec-side connectivity: all set cells reachable from one another by unit
moves through set cells. -/
def specConnected (board W : Nat) : Prop :=
  ∀ i j, board.testBit i = true → board.testBit j = true → Reachable board W i j

/-- Spec-side parity population: number of set cells whose coordinate sum has
parity `k`. -/
def parityClassCard (H W board k : Nat) : Nat :=
  ((Finset.range (H * W)).filter
    (fun i => board.testBit i = true ∧ (i / W + i % W) % 2 = k)).card

theorem countParity_eq_parityClassCard (H W board k : Nat) :
    countParity H W board k = parityClassCard H W board k := by
  rw [countParity_eq_range, countP_range_eq_card_filter, parityClassCard]
  congr 1
  apply Finset.filter_congr
  intro i _
  simp only [Nat.one_shiftLeft, Bool.and_eq_true, bne_iff_ne, beq_iff_eq,
    decide_eq_true_eq]
  constructor
  · rintro ⟨hand, hk⟩
    rw [Nat.and_comm] at hand
    exact ⟨(two_pow_and_ne_zero i board).mp hand, hk⟩
  · rintro ⟨hbit, hk⟩
    refine ⟨?_, hk⟩
    rw [Nat.and_comm]
    exact (two_pow_and_ne_zero i board).mpr hbit

theorem specAdjacent_symm (W : Nat) : ∀ i j, specAdjacent W i j → specAdjacent W j i := by
  intro i j h
  rcases h with ⟨hrow, h1 | h1⟩ | h1 | h1
  · exact Or.inl ⟨hrow.symm, Or.inr h1⟩
  · exact Or.inl ⟨hrow.symm, Or.inl h1⟩
  · exact Or.inr (Or.inr h1)
  · exact Or.inr (Or.inl h1)

theorem specStep_symm (board W : Nat) :
    Symmetric (fun i j => specStep board W i j) := by
  intro i j ⟨h1, h2, h3⟩
  exact ⟨h2, h1, specAdjacent_symm W i j h3⟩

theorem firstSetCell_spec (H W board : Nat) (hne : board ≠ 0)
    (hb : board < 2 ^ (H * W)) :
    ∃ s, firstSetCell H W board = some (2 ^ s) ∧ board.testBit s = true := by
  obtain ⟨i0, hi0⟩ := Nat.ne_zero_implies_bit_true hne
  have hi0lt : i0 < H * W := testBit_lt_bound hb hi0
  have hW : 0 < W := pos_width_of_lt H W i0 hi0lt
  have hex : ∃ rc ∈ gridCells H W,
      (board &&& EncodePosition W rc.1 rc.2 != 0) = true := by
    refine ⟨(i0 / W, i0 % W), ?_, ?_⟩
    · exact (mem_gridCells H W _).mpr
        ⟨(Nat.div_lt_iff_lt_mul hW).mpr hi0lt, Nat.mod_lt _ hW⟩
    · rw [bne_iff_ne, encodePosition_eq_pow]
      rw [Nat.and_comm]
      apply (two_pow_and_ne_zero _ board).mpr
      rw [Nat.div_add_mod i0 W]
      exact hi0
  have hsome : ((gridCells H W).find?
      (fun rc => board &&& EncodePosition W rc.1 rc.2 != 0)).isSome := by
    rw [List.find?_isSome]
    exact hex
  obtain ⟨rc, hrc⟩ := Option.isSome_iff_exists.mp hsome
  have hprop := List.find?_some hrc
  rw [bne_iff_ne, encodePosition_eq_pow, Nat.and_comm] at hprop
  have hbit := (two_pow_and_ne_zero _ board).mp hprop
  refine ⟨W * rc.1 + rc.2, ?_, hbit⟩
  rw [firstSetCell, hrc]
  simp only [Option.map_some']
  rw [encodePosition_eq_pow]

theorem move_to_spec (H W board j : Nat) (hb : board < 2 ^ (H * W)) (hj : j < H * W)
    (d : Direction) (np : Nat) (hmv : Move H W board (2 ^ j) d = some np) :
    ∃ j2, np = 2 ^ j2 ∧ board.testBit j2 = true ∧ specAdjacent W j j2 ∧ j2 < H * W := by
  have hW : 0 < W := pos_width_of_lt H W j hj
  have hr : j / W < H := (Nat.div_lt_iff_lt_mul hW).mpr hj
  have hc : j % W < W := Nat.mod_lt _ hW
  have hdm : W * (j / W) + j % W = j := Nat.div_add_mod j W
  obtain ⟨hgp, hand⟩ := (move_iff H W board (2 ^ j) d np).mp hmv
  rw [← hdm] at hgp
  have hbit : ∀ j2, np = 2 ^ j2 → board.testBit j2 = true := by
    intro j2 hnp
    rw [hnp] at hand
    exact (two_pow_and_ne_zero j2 board).mp hand
  cases d with
  | UP =>
    rw [gpam_up H W (j / W) (j % W) hc] at hgp
    by_cases h0 : j / W = 0
    · rw [if_pos h0] at hgp
      exact Option.noConfusion hgp
    · rw [if_neg h0] at hgp
      obtain ⟨rr, hrr⟩ := Nat.exists_eq_succ_of_ne_zero h0
      replace hrr : j / W = rr + 1 := hrr
      have hmul : W * (rr + 1) = W * rr + W := by ring
      have hnp : np = 2 ^ (W * (j / W - 1) + j % W) := (Option.some.inj hgp).symm
      refine ⟨W * (j / W - 1) + j % W, hnp, hbit _ hnp, ?_, ?_⟩
      · refine Or.inr (Or.inr ?_)
        rw [hrr] at hdm ⊢
        show j = W * rr + j % W + W
        omega
      · exact testBit_lt_bound hb (hbit _ hnp)
  | DOWN =>
    rw [gpam_down H W (j / W) (j % W) hr hc] at hgp
    by_cases h0 : j / W = H - 1
    · rw [if_pos h0] at hgp
      exact Option.noConfusion hgp
    · rw [if_neg h0] at hgp
      have hmul : W * (j / W + 1) = W * (j / W) + W := by ring
      have hnp : np = 2 ^ (W * (j / W + 1) + j % W) := (Option.some.inj hgp).symm
      refine ⟨W * (j / W + 1) + j % W, hnp, hbit _ hnp, ?_, ?_⟩
      · refine Or.inr (Or.inl ?_)
        omega
      · exact testBit_lt_bound hb (hbit _ hnp)
  | LEFT =>
    rw [gpam_left H W (j / W) (j % W) hc] at hgp
    by_cases h0 : j % W = 0
    · rw [if_pos h0] at hgp
      exact Option.noConfusion hgp
    · rw [if_neg h0] at hgp
      have hnp : np = 2 ^ (W * (j / W) + (j % W - 1)) := (Option.some.inj hgp).symm
      refine ⟨W * (j / W) + (j % W - 1), hnp, hbit _ hnp, ?_, ?_⟩
      · refine Or.inl ⟨?_, Or.inr ?_⟩
        · rw [mul_add_div_eq W (j / W) (j % W - 1) (by omega)]
        · omega
      · exact testBit_lt_bound hb (hbit _ hnp)
  | RIGHT =>
    rw [gpam_right H W (j / W) (j % W) hc] at hgp
    by_cases h0 : j % W = W - 1
    · rw [if_pos h0] at hgp
      exact Option.noConfusion hgp
    · rw [if_neg h0] at hgp
      have hnp : np = 2 ^ (W * (j / W) + (j % W + 1)) := (Option.some.inj hgp).symm
      refine ⟨W * (j / W) + (j % W + 1), hnp, hbit _ hnp, ?_, ?_⟩
      · refine Or.inl ⟨?_, Or.inl ?_⟩
        · rw [mul_add_div_eq W (j / W) (j % W + 1) (by omega)]
        · omega
      · exact testBit_lt_bound hb (hbit _ hnp)

theorem spec_to_move (H W board j j2 : Nat) (hj : j < H * W) (hj2 : j2 < H * W)
    (hadj : specAdjacent W j j2) (hset2 : board.testBit j2 = true) :
    ∃ d, Move H W board (2 ^ j) d = some (2 ^ j2) := by
  have hW : 0 < W := pos_width_of_lt H W j hj
  have hr : j / W < H := (Nat.div_lt_iff_lt_mul hW).mpr hj
  have hc : j % W < W := Nat.mod_lt _ hW
  have hdm : W * (j / W) + j % W = j := Nat.div_add_mod j W
  have hr2 : j2 / W < H := (Nat.div_lt_iff_lt_mul hW).mpr hj2
  have hand : 2 ^ j2 &&& board ≠ 0 := (two_pow_and_ne_zero j2 board).mpr hset2
  rcases hadj with ⟨hrow, hj21 | hj12⟩ | hj2W | hjW
  · -- j2 = j + 1 : move Right
    refine ⟨.RIGHT, (move_iff H W board (2 ^ j) .RIGHT (2 ^ j2)).mpr ⟨?_, hand⟩⟩
    rw [← hdm, gpam_right H W (j / W) (j % W) hc]
    have hclast : ¬(j % W = W - 1) := by
      intro hcl
      have hj2e : j2 = W * (j / W + 1) + 0 := by
        have : W * (j / W + 1) = W * (j / W) + W := by ring
        omega
      have : j2 / W = j / W + 1 := by
        rw [hj2e, mul_add_div_eq W (j / W + 1) 0 hW]
      omega
    rw [if_neg hclast]
    have hexp : W * (j / W) + (j % W + 1) = j2 := by omega
    rw [hexp]
  · -- j = j2 + 1 : move Left
    refine ⟨.LEFT, (move_iff H W board (2 ^ j) .LEFT (2 ^ j2)).mpr ⟨?_, hand⟩⟩
    rw [← hdm, gpam_left H W (j / W) (j % W) hc]
    have hc0 : ¬(j % W = 0) := by
      intro hcl
      have hr1 : 1 ≤ j / W := by
        rcases Nat.eq_zero_or_pos (j / W) with h0 | h0
        · rw [h0] at hdm
          omega
        · omega
      have hj2e : j2 = W * (j / W - 1) + (W - 1) := by
        obtain ⟨rr, hrr⟩ := Nat.exists_eq_succ_of_ne_zero (show j / W ≠ 0 by omega)
        replace hrr : j / W = rr + 1 := hrr
        have hmul2 : W * (rr + 1) = W * rr + W := by ring
        rw [hrr] at hdm ⊢
        show j2 = W * rr + (W - 1)
        omega
      have : j2 / W = j / W - 1 := by
        rw [hj2e, mul_add_div_eq W (j / W - 1) (W - 1) (by omega)]
      omega
    rw [if_neg hc0]
    have hexp : W * (j / W) + (j % W - 1) = j2 := by omega
    rw [hexp]
  · -- j2 = j + W : move Down
    refine ⟨.DOWN, (move_iff H W board (2 ^ j) .DOWN (2 ^ j2)).mpr ⟨?_, hand⟩⟩
    rw [← hdm, gpam_down H W (j / W) (j % W) hr hc]
    have hmul : W * (j / W + 1) = W * (j / W) + W := by ring
    have hj2e : j2 = W * (j / W + 1) + j % W := by omega
    have hlast : ¬(j / W = H - 1) := by
      intro hl
      have : j2 / W = j / W + 1 := by
        rw [hj2e, mul_add_div_eq W (j / W + 1) (j % W) hc]
      omega
    rw [if_neg hlast]
    have hexp : W * (j / W + 1) + j % W = j2 := by omega
    rw [hexp]
  · -- j = j2 + W : move Up
    refine ⟨.UP, (move_iff H W board (2 ^ j) .UP (2 ^ j2)).mpr ⟨?_, hand⟩⟩
    rw [← hdm, gpam_up H W (j / W) (j % W) hc]
    have hr1 : j / W ≠ 0 := by
      intro h0
      rw [h0] at hdm
      omega
    obtain ⟨rr, hrr⟩ := Nat.exists_eq_succ_of_ne_zero hr1
    replace hrr : j / W = rr + 1 := hrr
    have hmul : W * (rr + 1) = W * rr + W := by ring
    rw [if_neg hr1, hrr]
    have hdm2 : W * (rr + 1) + j % W = j := by
      rw [← hrr]
      exact hdm
    have hexp : W * (rr + 1 - 1) + j % W = j2 := by
      show W * rr + j % W = j2
      omega
    rw [hexp]

theorem mem_visitDir {H W board visited : Nat} {q : List Nat} {p : Nat} {d : Direction}
    {x : Nat} (hx : x ∈ visitDir H W board visited q p d) :
    x ∈ q ∨ Move H W board p d = some x := by
  rcases visitDir_cases H W board visited q p d with h | ⟨np, hmv, _, _, h⟩
  · rw [h] at hx
    exact Or.inl hx
  · rw [h] at hx
    rcases List.mem_append.mp hx with h1 | h1
    · exact Or.inl h1
    · have hxnp : x = np := by simpa using h1
      subst hxnp
      exact Or.inr hmv

theorem subset_visitDir (H W board visited : Nat) (q : List Nat) (p : Nat) (d : Direction) :
    ∀ x ∈ q, x ∈ visitDir H W board visited q p d := by
  intro x hx
  rcases visitDir_cases H W board visited q p d with h | ⟨np, _, _, _, h⟩
  · rw [h]
    exact hx
  · rw [h]
    exact List.mem_append_left _ hx

theorem visitDir_covers (H W board visited : Nat) (q : List Nat) (p np : Nat) (d : Direction)
    (hmv : Move H W board p d = some np) :
    np &&& visited ≠ 0 ∨ np ∈ visitDir H W board visited q p d := by
  have hnp0 : np ≠ 0 := by
    intro h0
    have := (move_iff H W board p d np).mp hmv
    rw [h0] at this
    rw [Nat.zero_and] at this
    exact this.2 rfl
  by_cases hg : np &&& visited = 0
  · right
    simp only [visitDir, hmv]
    rw [if_pos ⟨hnp0, hg⟩]
    exact List.mem_append_right _ (List.mem_singleton.mpr rfl)
  · exact Or.inl hg

theorem testBit_of_two_pow_and {visited j : Nat} (h : 2 ^ j &&& visited ≠ 0) :
    visited.testBit j = true := (two_pow_and_ne_zero j visited).mp h

theorem bfs_reach (H W board s : Nat) (hb : board < 2 ^ (H * W))
    (hs : board.testBit s = true) :
    ∀ visited queue,
      (∀ q ∈ queue, ∃ j, q = 2 ^ j ∧ board.testBit j = true ∧ Reachable board W s j) →
      (∀ j, visited.testBit j = true → board.testBit j = true ∧ Reachable board W s j) →
      (∀ (j j2 : Nat) (d : Direction), visited.testBit j = true →
          Move H W board (2 ^ j) d = some (2 ^ j2) →
          visited.testBit j2 = true ∨ (2 : Nat) ^ j2 ∈ queue) →
      ((∀ j, (bfs H W board visited queue).testBit j = true →
          board.testBit j = true ∧ Reachable board W s j) ∧
       (∀ j, (visited.testBit j = true ∨ (2 : Nat) ^ j ∈ queue) →
          (bfs H W board visited queue).testBit j = true) ∧
       (∀ (j j2 : Nat) (d : Direction),
          (bfs H W board visited queue).testBit j = true →
          Move H W board (2 ^ j) d = some (2 ^ j2) →
          (bfs H W board visited queue).testBit j2 = true)) := by
  intro visited queue
  induction visited, queue using bfs.induct H W board with
  | case1 visited =>
    intro hQ hV hC
    rw [bfs]
    refine ⟨hV, ?_, ?_⟩
    · intro j hj
      rcases hj with hj | hj
      · exact hj
      · exact absurd hj (List.not_mem_nil _)
    · intro j j2 d hj hmv
      rcases hC j j2 d hj hmv with h | h
      · exact h
      · exact absurd h (List.not_mem_nil _)
  | case2 visited p rest visited2 q1 q2 q3 q4 ih =>
    intro hQ hV hC
    obtain ⟨jp, hp_eq, hp_set, hp_reach⟩ := hQ p (List.mem_cons_self p rest)
    subst hp_eq
    have hjp_lt : jp < H * W := testBit_lt_bound hb hp_set
    have hv2bit : ∀ j, (visited ||| 2 ^ jp).testBit j = true ↔
        (visited.testBit j = true ∨ j = jp) := by
      intro j
      rw [Nat.testBit_or, Bool.or_eq_true]
      constructor
      · rintro (h | h)
        · exact Or.inl h
        · right
          rw [Nat.testBit_two_pow] at h
          exact (decide_eq_true_eq.mp h).symm
      · rintro (h | h)
        · exact Or.inl h
        · right
          rw [Nat.testBit_two_pow]
          exact decide_eq_true h.symm
    rw [bfs]
    have hQ2 : ∀ q ∈ q4, ∃ j, q = 2 ^ j ∧ board.testBit j = true ∧
        Reachable board W s j := by
      intro q hq
      have hstep : q ∈ rest ∨ ∃ d : Direction, Move H W board (2 ^ jp) d = some q := by
        rcases mem_visitDir hq with hq3 | hmv
        · rcases mem_visitDir hq3 with hq2 | hmv
          · rcases mem_visitDir hq2 with hq1 | hmv
            · rcases mem_visitDir hq1 with hq0 | hmv
              · exact Or.inl hq0
              · exact Or.inr ⟨.UP, hmv⟩
            · exact Or.inr ⟨.DOWN, hmv⟩
          · exact Or.inr ⟨.LEFT, hmv⟩
        · exact Or.inr ⟨.RIGHT, hmv⟩
      rcases hstep with hq0 | ⟨d, hmv⟩
      · exact hQ q (List.mem_cons_of_mem _ hq0)
      · obtain ⟨j2, rfl, hset2, hadj, _⟩ := move_to_spec H W board jp hb hjp_lt d q hmv
        exact ⟨j2, rfl, hset2,
          Relation.ReflTransGen.tail hp_reach ⟨hp_set, hset2, hadj⟩⟩
    have hV2 : ∀ j, visited2.testBit j = true →
        board.testBit j = true ∧ Reachable board W s j := by
      intro j hj
      rcases (hv2bit j).mp hj with hj | hj
      · exact hV j hj
      · subst hj
        exact ⟨hp_set, hp_reach⟩
    have hC2 : ∀ (j j2 : Nat) (d : Direction), visited2.testBit j = true →
        Move H W board (2 ^ j) d = some (2 ^ j2) →
        visited2.testBit j2 = true ∨ (2 : Nat) ^ j2 ∈ q4 := by
      intro j j2 d hj hmv
      rcases (hv2bit j).mp hj with hj | hj
      · rcases hC j j2 d hj hmv with h2 | h2
        · exact Or.inl ((hv2bit j2).mpr (Or.inl h2))
        · rcases List.mem_cons.mp h2 with h2 | h2
          · have hjj : j2 = jp := Nat.pow_right_injective (by omega) h2
            exact Or.inl ((hv2bit j2).mpr (Or.inr hjj))
          · right
            apply subset_visitDir
            apply subset_visitDir
            apply subset_visitDir
            apply subset_visitDir
            exact h2
      · rw [hj] at hmv
        by_cases hv2 : (2 : Nat) ^ j2 &&& visited2 = 0
        · right
          cases d with
          | UP =>
            rcases visitDir_covers H W board visited2 rest (2 ^ jp)
                (2 ^ j2) .UP hmv with h | h
            · exact absurd hv2 h
            · apply subset_visitDir
              apply subset_visitDir
              apply subset_visitDir
              exact h
          | DOWN =>
            rcases visitDir_covers H W board visited2 q1 (2 ^ jp)
                (2 ^ j2) .DOWN hmv with h | h
            · exact absurd hv2 h
            · apply subset_visitDir
              apply subset_visitDir
              exact h
          | LEFT =>
            rcases visitDir_covers H W board visited2 q2 (2 ^ jp)
                (2 ^ j2) .LEFT hmv with h | h
            · exact absurd hv2 h
            · apply subset_visitDir
              exact h
          | RIGHT =>
            rcases visitDir_covers H W board visited2 q3 (2 ^ jp)
                (2 ^ j2) .RIGHT hmv with h | h
            · exact absurd hv2 h
            · exact h
        · exact Or.inl (testBit_of_two_pow_and hv2)
    obtain ⟨ci, cii, ciii⟩ := ih hQ2 hV2 hC2
    refine ⟨ci, ?_, ciii⟩
    intro j hj
    apply cii
    rcases hj with hj | hj
    · exact Or.inl ((hv2bit j).mpr (Or.inl hj))
    · rcases List.mem_cons.mp hj with hj | hj
      · have hjj : j = jp := Nat.pow_right_injective (by omega) hj
        exact Or.inl ((hv2bit j).mpr (Or.inr hjj))
      · right
        apply subset_visitDir
        apply subset_visitDir
        apply subset_visitDir
        apply subset_visitDir
        exact hj

theorem board_eq_bfs_iff (H W board s : Nat) (hb : board < 2 ^ (H * W))
    (hs : board.testBit s = true) :
    board = bfs H W board 0 [2 ^ s] ↔
      (∀ j, board.testBit j = true → Reachable board W s j) := by
  obtain ⟨ci, cii, ciii⟩ := bfs_reach H W board s hb hs 0 [2 ^ s]
    (by
      intro q hq
      have hq2 : q = 2 ^ s := by simpa using hq
      subst hq2
      exact ⟨s, rfl, hs, Relation.ReflTransGen.refl⟩)
    (by
      intro j hj
      rw [Nat.zero_testBit] at hj
      exact absurd hj (by simp))
    (by
      intro j j2 d hj _
      rw [Nat.zero_testBit] at hj
      exact absurd hj (by simp))
  constructor
  · intro heq j hj
    have hv : (bfs H W board 0 [2 ^ s]).testBit j = true := by
      rw [← heq]
      exact hj
    exact (ci j hv).2
  · intro hreach
    have hV : ∀ k, Reachable board W s k →
        (bfs H W board 0 [2 ^ s]).testBit k = true := by
      intro k hk
      induction hk with
      | refl => exact cii s (Or.inr (by simp))
      | tail hab hbc ihk =>
        obtain ⟨hsetb, hsetc, hadj⟩ := hbc
        obtain ⟨d, hmv⟩ := spec_to_move H W board _ _ (testBit_lt_bound hb hsetb)
          (testBit_lt_bound hb hsetc) hadj hsetc
        exact ciii _ _ d ihk hmv
    apply Nat.eq_of_testBit_eq
    intro j
    cases hVj : (bfs H W board 0 [2 ^ s]).testBit j with
    | true =>
      rw [(ci j hVj).1]
    | false =>
      cases hbj : board.testBit j with
      | false => rfl
      | true =>
        have hcon := hV j (hreach j hbj)
        rw [hcon] at hVj
        exact Bool.noConfusion hVj

theorem connected_iff_seed (board W s : Nat) (hs : board.testBit s = true) :
    specConnected board W ↔ (∀ j, board.testBit j = true → Reachable board W s j) := by
  constructor
  · intro h j hj
    exact h s j hs hj
  · intro h i j hi hj
    have hsym : Symmetric (Reachable board W) :=
      Relation.ReflTransGen.symmetric (specStep_symm board W)
    exact Relation.ReflTransGen.trans (hsym (h i hi)) (h j hj)

/-- C2: `IsBoardPossible` returns false on the empty board, false when the
two parity-class populations differ by more than 1, false when the set cells
are not all reachable from one another by unit moves through set cells, and
true in every other case. -/
theorem C2_is_board_possible (H W board : Nat) (hb : board < 2 ^ (H * W)) :
    IsBoardPossible H W board = true ↔
      board ≠ 0 ∧
        ((parityClassCard H W board 0 : Int) - parityClassCard H W board 1).natAbs ≤ 1 ∧
        specConnected board W := by
  by_cases h0 : board = 0
  · subst h0
    rw [IsBoardPossible]
    simp
  · rw [IsBoardPossible, if_neg h0, countParity_eq_parityClassCard H W board 0,
      countParity_eq_parityClassCard H W board 1]
    by_cases hpar :
        1 < ((parityClassCard H W board 0 : Int) - parityClassCard H W board 1).natAbs
    · rw [if_pos hpar]
      constructor
      · intro h
        exact absurd h (by simp)
      · rintro ⟨_, hp, _⟩
        omega
    · rw [if_neg hpar]
      obtain ⟨s, hfs, hset⟩ := firstSetCell_spec H W board h0 hb
      simp only [hfs]
      rw [beq_iff_eq, board_eq_bfs_iff H W board s hb hset]
      constructor
      · intro h
        exact ⟨h0, by omega, (connected_iff_seed board W s hset).mpr h⟩
      · rintro ⟨_, _, hconn⟩
        exact (connected_iff_seed board W s hset).mp hconn

theorem C2_witness :
    (15 : Nat) < 2 ^ (2 * 2) ∧
      (IsBoardPossible 2 2 15 = true ↔
        (15 : Nat) ≠ 0 ∧
          ((parityClassCard 2 2 15 0 : Int) - parityClassCard 2 2 15 1).natAbs ≤ 1 ∧
          specConnected 15 2) :=
  ⟨by decide, C2_is_board_possible 2 2 15 (by decide)⟩

theorem shiftLeft_shiftRight_cancel (x a b : Nat) : (x <<< a) >>> (a + b) = x >>> b := by
  apply Nat.eq_of_testBit_eq
  intro t
  rw [Nat.testBit_shiftRight, Nat.testBit_shiftRight, Nat.testBit_shiftLeft]
  rw [decide_eq_true (show a + b + t ≥ a by omega)]
  rw [show a + b + t - a = b + t by omega]
  simp

theorem lt_two_pow_of_testBit_bound :
    ∀ b N : Nat, (∀ i, b.testBit i = true → i < N) → b < 2 ^ N := by
  intro b
  induction b using Nat.strong_induction_on with
  | _ b ih =>
    intro N hbits
    rcases Nat.eq_zero_or_pos b with rfl | hb
    · exact Nat.two_pow_pos N
    · cases N with
      | zero =>
        obtain ⟨i, hi⟩ := Nat.ne_zero_implies_bit_true (show b ≠ 0 by omega)
        exact absurd (hbits i hi) (by omega)
      | succ N2 =>
        have hdiv : b / 2 < b := Nat.div_lt_self hb (by omega)
        have hrec : ∀ i, (b / 2).testBit i = true → i < N2 := by
          intro i hi
          rw [Nat.testBit_div_two] at hi
          have := hbits (i + 1) hi
          omega
        have h1 := ih (b / 2) hdiv N2 hrec
        have hmod := Nat.div_add_mod b 2
        have hm2 : b % 2 < 2 := Nat.mod_lt _ (by omega)
        have hpow : 2 ^ (N2 + 1) = 2 * 2 ^ N2 := by rw [Nat.pow_succ]; ring
        omega

theorem shifted_bit_coords (W i dr dc : Nat) (hc : i % W + dc < W) :
    (i + (W * dr + dc)) / W = i / W + dr ∧ (i + (W * dr + dc)) % W = i % W + dc := by
  have hW : 0 < W := by omega
  have hdm := Nat.div_add_mod i W
  have hh : W * (i / W + dr) = W * (i / W) + W * dr := by ring
  have heq : i + (W * dr + dc) = W * (i / W + dr) + (i % W + dc) := by omega
  rw [heq, mul_add_div_eq W _ _ hc, mul_add_mod_eq W _ _ hc]
  exact ⟨rfl, rfl⟩

/-- C5: the canonicalizer `DeduplicateBoard` is idempotent on every board of
the `H*W`-bit grid, and translation-invariant: shifting a board's shape by
whole rows and/or columns within the grid bounds yields the same canonical
key. -/
theorem C5_canonicalize (H W board : Nat) (hb : board < 2 ^ (H * W)) :
    DeduplicateBoard H W (DeduplicateBoard H W board) = DeduplicateBoard H W board ∧
      ∀ dr dc : Nat,
        (∀ i, board.testBit i = true → i / W + dr < H ∧ i % W + dc < W) →
        DeduplicateBoard H W (board <<< (W * dr + dc)) = DeduplicateBoard H W board := by
  constructor
  · by_cases h0 : board = 0
    · subst h0
      simp [DeduplicateBoard]
    · obtain ⟨hfrH, ⟨cA, hcA, hbitA⟩, hrowmin⟩ := firstNonEmptyRow_spec H W board h0 hb
      obtain ⟨hfcW, ⟨kB, hkB, hbitB⟩, hcolmin⟩ := firstNonEmptyCol_spec H W board h0 hb
      set fr := firstNonEmptyRow H W board with hfr_def
      set fc := firstNonEmptyCol H W board with hfc_def
      have hcomm : fr * W = W * fr := Nat.mul_comm fr W
      have hd : DeduplicateBoard H W board = board >>> (fr * W + fc) := by
        rw [DeduplicateBoard, if_neg h0]
      have hfcA : fc ≤ cA := by
        have h := hcolmin (W * fr + cA) hbitA
        rw [mul_add_mod_eq W fr cA hcA] at h
        exact h
      have hbitA2 : (board >>> (fr * W + fc)).testBit (cA - fc) = true := by
        rw [Nat.testBit_shiftRight]
        rw [show fr * W + fc + (cA - fc) = W * fr + cA by omega]
        exact hbitA
      have hb2ne : board >>> (fr * W + fc) ≠ 0 := by
        intro hz
        rw [hz] at hbitA2
        simp at hbitA2
      have hb2lt : board >>> (fr * W + fc) < 2 ^ (H * W) := by
        rw [Nat.shiftRight_eq_div_pow]
        exact lt_of_le_of_lt (Nat.div_le_self _ _) hb
      have hfrB : fr ≤ kB := by
        have h := hrowmin (W * kB + fc) hbitB
        rw [mul_add_div_eq W kB fc hfcW] at h
        exact h
      have hkk : W * (kB - fr) + W * fr = W * kB := by
        rw [← Nat.mul_add]
        congr 1
        omega
      have hbitB2 : (board >>> (fr * W + fc)).testBit (W * (kB - fr)) = true := by
        rw [Nat.testBit_shiftRight]
        rw [show fr * W + fc + W * (kB - fr) = W * kB + fc by omega]
        exact hbitB
      obtain ⟨_, _, hrowmin2⟩ := firstNonEmptyRow_spec H W _ hb2ne hb2lt
      obtain ⟨_, _, hcolmin2⟩ := firstNonEmptyCol_spec H W _ hb2ne hb2lt
      have hW : 0 < W := by omega
      have hfr2 : firstNonEmptyRow H W (board >>> (fr * W + fc)) = 0 := by
        have h := hrowmin2 (cA - fc) hbitA2
        have hdiv : (cA - fc) / W = 0 := Nat.div_eq_of_lt (by omega)
        omega
      have hfc2 : firstNonEmptyCol H W (board >>> (fr * W + fc)) = 0 := by
        have h := hcolmin2 (W * (kB - fr)) hbitB2
        have hmod : (W * (kB - fr)) % W = 0 := Nat.mul_mod_right W _
        omega
      rw [hd, DeduplicateBoard, if_neg hb2ne, hfr2, hfc2]
      simp
  · intro dr dc hshift
    by_cases h0 : board = 0
    · subst h0
      rw [Nat.zero_shiftLeft]
    · obtain ⟨hfrH, ⟨cA, hcA, hbitA⟩, hrowmin⟩ := firstNonEmptyRow_spec H W board h0 hb
      obtain ⟨hfcW, ⟨kB, hkB, hbitB⟩, hcolmin⟩ := firstNonEmptyCol_spec H W board h0 hb
      set fr := firstNonEmptyRow H W board with hfr_def
      set fc := firstNonEmptyCol H W board with hfc_def
      have hW : 0 < W := by omega
      have hbits2 : ∀ t, (board <<< (W * dr + dc)).testBit t = true ↔
          ∃ i, board.testBit i = true ∧ t = i + (W * dr + dc) := by
        intro t
        rw [Nat.testBit_shiftLeft]
        constructor
        · intro h
          rw [Bool.and_eq_true, decide_eq_true_eq] at h
          exact ⟨t - (W * dr + dc), h.2, by omega⟩
        · rintro ⟨i, hi, rfl⟩
          rw [Bool.and_eq_true, decide_eq_true_eq]
          refine ⟨by omega, ?_⟩
          rw [show i + (W * dr + dc) - (W * dr + dc) = i by omega]
          exact hi
      have hbA2 : (board <<< (W * dr + dc)).testBit (W * fr + cA + (W * dr + dc)) = true :=
        (hbits2 _).mpr ⟨W * fr + cA, hbitA, rfl⟩
      have hb2ne : board <<< (W * dr + dc) ≠ 0 := by
        intro hz
        rw [hz] at hbA2
        simp at hbA2
      have hb2lt : board <<< (W * dr + dc) < 2 ^ (H * W) := by
        apply lt_two_pow_of_testBit_bound
        intro t ht
        obtain ⟨i, hi, rfl⟩ := (hbits2 t).mp ht
        obtain ⟨hrow, hcol⟩ := hshift i hi
        obtain ⟨hdi, hmi⟩ := shifted_bit_coords W i dr dc hcol
        have hdm := Nat.div_add_mod (i + (W * dr + dc)) W
        have hin : (i + (W * dr + dc)) / W < H := by omega
        have hmw : (i + (W * dr + dc)) % W < W := by omega
        have := (mul_add_lt_mul_iff W ((i + (W * dr + dc)) / W)
          ((i + (W * dr + dc)) % W) H hmw).mpr hin
        rw [Nat.mul_comm H W]
        omega
      obtain ⟨hfrH2, ⟨c2, hc2, hbit2⟩, hrowmin2⟩ :=
        firstNonEmptyRow_spec H W _ hb2ne hb2lt
      obtain ⟨hfcW2, ⟨k2, hk2, hbit2c⟩, hcolmin2⟩ :=
        firstNonEmptyCol_spec H W _ hb2ne hb2lt
      have hiA : (W * fr + cA) / W = fr := mul_add_div_eq W fr cA hcA
      have hiAm : (W * fr + cA) % W = cA := mul_add_mod_eq W fr cA hcA
      have hshiftA : (W * fr + cA) % W + dc < W := by
        have h2 := (hshift (W * fr + cA) hbitA).2
        exact h2
      have hfr2 : firstNonEmptyRow H W (board <<< (W * dr + dc)) = fr + dr := by
        apply Nat.le_antisymm
        · have h := hrowmin2 _ hbA2
          obtain ⟨hdi, _⟩ := shifted_bit_coords W (W * fr + cA) dr dc hshiftA
          omega
        · obtain ⟨i, hi, hti⟩ := (hbits2 _).mp hbit2
          obtain ⟨hdi, _⟩ := shifted_bit_coords W i dr dc (hshift i hi).2
          have hrowt : (i + (W * dr + dc)) / W = firstNonEmptyRow H W
              (board <<< (W * dr + dc)) := by
            rw [← hti, mul_add_div_eq W _ c2 hc2]
          have hmin := hrowmin i hi
          omega
      have hbB2 : (board <<< (W * dr + dc)).testBit (W * kB + fc + (W * dr + dc)) = true :=
        (hbits2 _).mpr ⟨W * kB + fc, hbitB, rfl⟩
      have hiBm : (W * kB + fc) % W = fc := mul_add_mod_eq W kB fc hfcW
      have hfc2 : firstNonEmptyCol H W (board <<< (W * dr + dc)) = fc + dc := by
        apply Nat.le_antisymm
        · have h := hcolmin2 _ hbB2
          have h2 := (hshift (W * kB + fc) hbitB).2
          obtain ⟨_, hmi⟩ := shifted_bit_coords W (W * kB + fc) dr dc h2
          omega
        · obtain ⟨i, hi, hti⟩ := (hbits2 _).mp hbit2c
          obtain ⟨_, hmi⟩ := shifted_bit_coords W i dr dc (hshift i hi).2
          have hcolt : (i + (W * dr + dc)) % W = firstNonEmptyCol H W
              (board <<< (W * dr + dc)) := by
            rw [← hti, mul_add_mod_eq W k2 _ hfcW2]
          have hmin := hcolmin i hi
          omega
      rw [DeduplicateBoard, if_neg hb2ne, DeduplicateBoard, if_neg h0, hfr2, hfc2]
      rw [show (fr + dr) * W + (fc + dc) = (W * dr + dc) + (fr * W + fc) by ring]
      rw [shiftLeft_shiftRight_cancel]

theorem C5_witness :
    (27 : Nat) < 2 ^ (3 * 3) ∧
      DeduplicateBoard 3 3 (DeduplicateBoard 3 3 27) = DeduplicateBoard 3 3 27 ∧
      DeduplicateBoard 3 3 (27 <<< (3 * 1 + 1)) = DeduplicateBoard 3 3 27 := by
  have hshift27 : ∀ i, (27 : Nat).testBit i = true → i / 3 + 1 < 3 ∧ i % 3 + 1 < 3 := by
    intro i hi
    have hlt : i < 9 := testBit_lt_bound (show (27 : Nat) < 2 ^ 9 by norm_num) hi
    interval_cases i <;> revert hi <;> decide
  exact ⟨by decide, (C5_canonicalize 3 3 27 (by decide)).1,
    (C5_canonicalize 3 3 27 (by decide)).2 1 1 hshift27⟩

/-- C1: whenever `Solve` returns a non-empty path from a one-hot start whose
bit is set in the board, that path visits exactly the set cells of the board:
its length is the board's population, its elements are pairwise distinct
one-hot set cells, consecutive elements are one Up/Down/Left/Right move
apart, and every set bit of the board appears in it. -/
theorem C1_solve_path_correct (H W board pos i : Nat) (hpos : pos = 2 ^ i)
    (hset : board.testBit i = true) (hne : Solve H W board pos ≠ []) :
    (Solve H W board pos).length = Size board ∧
      (Solve H W board pos).Chain' (adjacentStep H W) ∧
      (∀ q ∈ Solve H W board pos, ∃ j, q = 2 ^ j ∧ board.testBit j = true) ∧
      (∀ j, board.testBit j = true → 2 ^ j ∈ Solve H W board pos) ∧
      (Solve H W board pos).Nodup := by
  by_cases hs : (SolveAux H W board (some pos) []).1 = true
  · have heq : SolveAux H W board (some pos) [] =
        (true, (SolveAux H W board (some pos) []).2) := by
      rw [← hs]
    obtain ⟨tail, hout, hlen, hchain, helem, hcover, hnodup, _⟩ :=
      solveAux_success board H W pos [] _ ⟨i, hpos⟩ heq
    have hsolve : Solve H W board pos = tail := by
      rw [Solve, hout, List.nil_append]
    rw [hsolve]
    exact ⟨hlen, hchain, helem, hcover, hnodup⟩
  · exfalso
    apply hne
    rw [Solve]
    exact solveAux_fail_path board H W (some pos) [] (by simpa using hs)

theorem C1_witness :
    (1 : Nat) = 2 ^ 0 ∧ (3 : Nat).testBit 0 = true ∧ Solve 1 2 3 1 ≠ [] ∧
      ((Solve 1 2 3 1).length = Size 3 ∧
        (Solve 1 2 3 1).Chain' (adjacentStep 1 2) ∧
        (∀ q ∈ Solve 1 2 3 1, ∃ j, q = 2 ^ j ∧ (3 : Nat).testBit j = true) ∧
        (∀ j, (3 : Nat).testBit j = true → 2 ^ j ∈ Solve 1 2 3 1) ∧
        (Solve 1 2 3 1).Nodup) := by
  have hsolve : Solve 1 2 3 1 = [1, 2] :=
    Solve_eq_of_SolveAuxI 10 1 2 3 1 (true, [1, 2]) (by decide)
  have hne : Solve 1 2 3 1 ≠ [] := by
    rw [hsolve]; simp
  exact ⟨rfl, by decide, hne, C1_solve_path_correct 1 2 3 1 0 rfl (by decide) hne⟩

/-- C3: a fully exhausted backtracking search returns an empty path, not an
error; concretely, on the 2×2 grid with cells `(1,1)` and `(2,2)` (one-based)
removed the remaining board is `6` (the two non-adjacent off-diagonal cells),
`IsBoardPossible` is false, and `Solve` from either remaining cell returns
the empty path. -/
theorem C3_exhausted_search_returns_empty :
    (∀ H W board p : Nat,
        (SolveAux H W board (some p) []).1 = false → Solve H W board p = []) ∧
      IsBoardPossible 2 2 6 = false ∧ Solve 2 2 6 2 = [] ∧ Solve 2 2 6 4 = [] := by
  refine ⟨?_, ?_, ?_, ?_⟩
  · intro H W board p h
    rw [Solve]
    exact solveAux_fail_path board H W (some p) [] h
  · decide
  · exact Solve_eq_of_SolveAuxI 10 2 2 6 2 (false, []) (by decide)
  · exact Solve_eq_of_SolveAuxI 10 2 2 6 4 (false, []) (by decide)

theorem C3_witness : (SolveAux 2 2 6 (some 2) []).1 = false ∧ Solve 2 2 6 2 = [] := by
  have h := SolveAuxI_sound 10 2 2 6 (some 2) [] (false, []) (by decide)
  have h1 : (SolveAux 2 2 6 (some 2) []).1 = false := by rw [h]
  exact ⟨h1, C3_exhausted_search_returns_empty.1 2 2 6 2 h1⟩

theorem C9_witness :
    0 < 2 ∧ 0 < 2 ∧ Move 2 2 15 (EncodePosition 2 0 0) Direction.DOWN = some 4 ∧
      ∃ i, i < 2 * 2 ∧ (4 : Nat) = 2 ^ i ∧ (15 : Nat).testBit i :=
  ⟨by decide, by decide, by decide,
    C9_move_preserves_onehot 2 2 15 0 0 Direction.DOWN 4 (by decide) (by decide) (by decide)⟩

end ConnectAGraph
